import Mathlib

/-!
Shallow embedding of the core of `git_tree_go` (root resolution, path
abbreviation, and the Zowee variable-compression engine) together with
proofs about the claims of the specification.

Modelling conventions:
* Go strings are Lean `String`s; byte-level operations of the Go standard
  library are modelled on `String.data` (`List Char`), which coincides with
  byte order for the ASCII inputs the program manipulates.
* Go maps (`map[string]string` etc.) are modelled as association lists.
  Go map iteration order is unspecified; the list order is the deterministic
  stand-in used by this embedding.  Assignment `m[k] = v` replaces the value
  in place if the key is present and appends otherwise.
* Functions of the Go standard library used by the code (`filepath.Base`,
  `filepath.Dir`, `filepath.Clean`, `strings.Fields`, `strings.Trim`,
  `strings.HasPrefix`, `strings.TrimPrefix`, `strings.Replace`,
  `strings.Split`, `sort.Strings`) are modelled by the `go...` functions
  below, faithful to their documented behaviour on slash-separated paths.
* `os.Getenv` is an injected lookup `String → String` (Go returns the empty
  string for unset variables, so absent and empty are conflated, exactly as
  in the code).  `filepath.Abs` is an injected total function; its error
  case (working-directory lookup failure) is outside this model.
-/

/-- The apostrophe character, written via its code point. -/
def apos : Char := Char.ofNat 39

/-- Character class of Go regexp `[a-zA-Z0-9_]` (the `\w` class). -/
def wordChar (c : Char) : Bool :=
  (decide ('a' ≤ c) && decide (c ≤ 'z')) || (decide ('A' ≤ c) && decide (c ≤ 'Z')) ||
    (decide ('0' ≤ c) && decide (c ≤ '9')) || decide (c = '_')

/-- Character class of Go regexp `[a-zA-Z_]` (identifier start). -/
def identStart (c : Char) : Bool :=
  (decide ('a' ≤ c) && decide (c ≤ 'z')) || (decide ('A' ≤ c) && decide (c ≤ 'Z')) ||
    decide (c = '_')

/-- Go `unicode.IsSpace` restricted to the Latin-1 range, which is what
`strings.Fields` splits on. -/
def isGoSpace (c : Char) : Bool :=
  decide (c = ' ') || decide (c = Char.ofNat 9) || decide (c = Char.ofNat 10) ||
    decide (c = Char.ofNat 11) || decide (c = Char.ofNat 12) || decide (c = Char.ofNat 13) ||
    decide (c = Char.ofNat 133) || decide (c = Char.ofNat 160)

/-- Byte-wise string comparison of Go (`s <= t` for `sort.Strings`),
modelled on character lists. -/
def listLe : List Char → List Char → Bool
  | [], _ => true
  | _ :: _, [] => false
  | a :: as, b :: bs => if a < b then true else if b < a then false else listLe as bs

/-- Go string order on `String`, used to model `sort.Strings`. -/
def strLe (a b : String) : Prop := listLe a.data b.data = true

instance : DecidableRel strLe := fun a b => by unfold strLe; infer_instance

/-- Comparison by string length, used to model the `sort.Slice` call of
`defineIntermediateVars` (which sorts candidate paths by ascending length;
ties are left in discovery order by this embedding). -/
def lenLe (a b : String) : Prop := a.data.length ≤ b.data.length

instance : DecidableRel lenLe := fun a b => by unfold lenLe; infer_instance

/-- Strict comparison by string length.  On a candidate list whose lengths are
pairwise distinct, `lenLe`-sortedness coincides with `lenLt`-sortedness, and
`lenLt` is (vacuously) antisymmetric, so a length-sorted enumeration of such a
list is unique. -/
def lenLt (a b : String) : Prop := a.data.length < b.data.length

instance : DecidableRel lenLt := fun a b => by unfold lenLt; infer_instance

instance : IsAntisymm String lenLt :=
  ⟨fun _ _ h1 h2 => absurd h2 (Nat.lt_asymm h1)⟩

/-- List-level model of Go `strings.HasPrefix`: is the first list a leading
segment of the second? -/
def listIsPre : List Char → List Char → Bool
  | [], _ => true
  | _ :: _, [] => false
  | a :: as, b :: bs => decide (a = b) && listIsPre as bs

/-- Go `strings.HasPrefix s pre`. -/
def strHasPre (s pre : String) : Bool := listIsPre pre.data s.data

/-- Go `strings.TrimPrefix s pre`. -/
def strTrimPre (s pre : String) : String :=
  if strHasPre s pre then String.mk (s.data.drop pre.data.length) else s

/-- Split a character list at every character satisfying `p`
(Go `strings.Split` / the splitting core of `strings.Fields`).  Always
returns at least one (possibly empty) segment. -/
def splitByP (p : Char → Bool) (l : List Char) : List (List Char) :=
  l.foldr
    (fun x acc =>
      if p x then [] :: acc
      else match acc with
        | h :: t => (x :: h) :: t
        | [] => [[x]])
    [[]]

/-- Go `strings.Split s (String.singleton c)`. -/
def splitChar (c : Char) (l : List Char) : List (List Char) := splitByP (fun x => decide (x = c)) l

/-- Join segments with a separator character (Go `strings.Join` with a
one-character separator). -/
def joinChar (c : Char) : List (List Char) → List Char
  | [] => []
  | [l] => l
  | l :: ls => l ++ c :: joinChar c ls

/-- Go `strings.Fields`: split around runs of white space, dropping empty
segments. -/
def goFields (s : String) : List String :=
  ((splitByP isGoSpace s.data).filter (fun seg => seg ≠ [])).map String.mk

/-- Go `strings.Trim s cutset`: remove leading and trailing characters that
belong to `cutset`. -/
def goTrimChars (s : String) (cutset : List Char) : String :=
  String.mk ((((s.data.dropWhile (fun c => cutset.contains c)).reverse).dropWhile
    (fun c => cutset.contains c)).reverse)

/-- Go `path/filepath.Base` for slash-separated paths: empty path gives
`"."`; trailing slashes are stripped; an all-slash path gives `"/"`;
otherwise the final component. -/
def goBase (path : String) : String :=
  if path = "" then "."
  else
    let l := (path.data.reverse.dropWhile (fun c => decide (c = '/'))).reverse
    if l = [] then "/"
    else String.mk ((l.reverse.takeWhile (fun c => decide (c ≠ '/'))).reverse)

/-- Go `path/filepath.Clean` for slash-separated paths, modelled by the
standard component-stack algorithm: resolve `.` and `..` components, drop
repeated slashes, return `"."` for an empty relative result and `"/"` for an
empty rooted result. -/
def goClean (path : String) : String :=
  if path = "" then "."
  else
    let rooted := path.data.head? = some '/'
    let comps := (splitChar '/' path.data).filter (fun c => c ≠ [])
    let stack := comps.foldl
      (fun st c =>
        if c = ['.'] then st
        else if c = ['.', '.'] then
          if st ≠ [] ∧ st.getLast? ≠ some ['.', '.'] then st.dropLast
          else if rooted then st else st ++ [c]
        else st ++ [c])
      []
    if stack = [] then (if rooted then "/" else ".")
    else String.mk ((if rooted then ['/'] else []) ++ joinChar '/' stack)

/-- Go `path/filepath.Dir`: everything up to and including the final slash,
then `Clean`ed. -/
def goDir (path : String) : String :=
  goClean (String.mk ((path.data.reverse.dropWhile (fun c => decide (c ≠ '/'))).reverse))

/-- First-occurrence replacement on character lists
(Go `strings.Replace s old new 1`).  An empty `old` matches at the start. -/
def replaceFirstL (old new : List Char) : List Char → List Char
  | [] => if listIsPre old [] then new else []
  | c :: t =>
    if listIsPre old (c :: t) then new ++ (c :: t).drop old.length
    else c :: replaceFirstL old new t

/-- Go `strings.Replace s old new 1` on `String`s. -/
def goReplaceFirst (s old new : String) : String :=
  String.mk (replaceFirstL old.data new.data s.data)

/-- Helper of `internal/config.go`: `contains(slice, item)`. -/
def contains (slice : List String) (item : String) : Bool :=
  slice.any (fun s => decide (s = item))

/-- Helper of `internal/config.go`: `mapContainsValue(m, value)`. -/
def mapContainsValue (m : List (String × String)) (value : String) : Bool :=
  m.any (fun e => decide (e.2 = value))

/-- Lookup in an association-list model of a Go `map[string]string`. -/
def lookupVar (m : List (String × String)) (k : String) : Option String :=
  (m.find? (fun e => decide (e.1 = k))).map Prod.snd

/-- Assignment `m[k] = v` on the association-list model: replace in place if
present, append otherwise. -/
def insertVar : List (String × String) → String → String → List (String × String)
  | [], k, v => [(k, v)]
  | e :: t, k, v => if e.1 = k then (k, v) :: t else e :: insertVar t k v

/-- Lookup in an association-list model of a Go `map[string]int`, defaulting
to the zero value as Go map reads do. -/
def countOf (m : List (String × Nat)) (k : String) : Nat :=
  ((m.find? (fun e => decide (e.1 = k))).map Prod.snd).getD 0

/-- Increment `m[k]++` on the association-list model of a Go counter map. -/
def bumpCount : List (String × Nat) → String → List (String × Nat)
  | [], k => [(k, 1)]
  | e :: t, k => if e.1 = k then (e.1, e.2 + 1) :: t else e :: bumpCount t k

/-- Helper of `internal/config.go`: `uniqueStrings(slice)` keeps the first
occurrence of each string. -/
def uniqueStringsAux (seen : List String) : List String → List String
  | [] => []
  | s :: t => if contains seen s then uniqueStringsAux seen t else s :: uniqueStringsAux (s :: seen) t

/-- Helper of `internal/config.go`: `uniqueStrings(slice)`. -/
def uniqueStrings (slice : List String) : List String := uniqueStringsAux [] slice

/-- Helper of `internal/config.go`: `hasParentInPaths(prefix, paths)`. -/
def hasParentInPaths (pfx : String) (paths : List String) : Bool :=
  paths.any (fun p => decide (goDir pfx = p))

/-- Helper of `internal/config.go`: `hasConflictingDefined(prefix, defined)`. -/
def hasConflictingDefined (pfx : String) (defined : List (String × String)) : Bool :=
  defined.any (fun e => strHasPre pfx e.2 || strHasPre e.2 pfx)

/-- State of the Zowee optimizer (`internal/config.go`): generated variable
names with their source paths, and rendered lines for synthesized
intermediate variables keyed by their source path. -/
structure ZoweeOptimizer where
  definedVars : List (String × String)
  intermediateVars : List (String × String)
deriving DecidableEq

/-- `NewZoweeOptimizer(initialVars)`: seed `definedVars` with each display
key stripped of `'` and `$`, bound to the first of its paths. -/
def newZoweeOptimizer (initialVars : List (String × List String)) : ZoweeOptimizer :=
  { definedVars :=
      initialVars.foldl
        (fun dv kv =>
          match kv.2 with
          | [] => dv
          | p :: _ => insertVar dv (goTrimChars kv.1 [apos, '$']) p)
        []
    intermediateVars := [] }

/-- `generateVarName(path)` of `internal/config.go`: basename, `www.` domain
collapsing, dash replacement, collision disambiguation against
`definedVars`, sanitization, and leading-digit protection. -/
def generateVarName (definedVars : List (String × String)) (path : String) : String :=
  let basename := goBase path
  if basename = "" then ""
  else
    let parts := splitChar '.' basename.data
    let name1 :=
      match parts with
      | f :: second :: _ => if f = "www".data then second else f
      | [f] => f
      | [] => []
    let name2 := name1.map (fun c => if c = '-' then '_' else c)
    let name3 :=
      match lookupVar definedVars (String.mk name2) with
      | some existingPath =>
        if existingPath ≠ path then (goBase (goDir path)).data ++ '_' :: name2 else name2
      | none => name2
    let name4 := name3.map (fun c => if wordChar c then c else '_')
    let name5 :=
      match name4 with
      | c :: _ => if decide ('0' ≤ c) && decide (c ≤ '9') then '_' :: name4 else name4
      | [] => name4
    String.mk name5

/-- Loop of `findBestSubstitution`: keep the first entry whose source path is
a strict slash-ancestor of `path` and strictly longer than the best so far. -/
def fbsLoop (path : String) : List (String × String) → Option (String × String) → Nat →
    Option (String × String)
  | [], best, _ => best
  | e :: t, best, longest =>
    if strHasPre path (e.2 ++ "/") = true ∧ longest < e.2.data.length then
      fbsLoop path t (some e) e.2.data.length
    else fbsLoop path t best longest

/-- `findBestSubstitution(path)` of `internal/config.go`, over an explicit
entry list standing for the `definedVars` map. -/
def findBestSubstitution (definedVars : List (String × String)) (path : String) :
    Option (String × String) :=
  fbsLoop path definedVars none 0

/-- All proper slash-separated leading joins of a path, as enumerated by the
prefix loop of `defineIntermediateVars` (`strings.Join(parts[:i], "/")` for
`1 ≤ i < len(parts)`). -/
def pathLeads (path : String) : List String :=
  let parts := splitChar '/' path.data
  (List.range' 1 (parts.length - 1)).map (fun i => String.mk (joinChar '/' (parts.take i)))

/-- Render the value of a binding: best substitution if one exists, else the
literal path. -/
def renderValue (definedVars : List (String × String)) (path : String) : String :=
  match findBestSubstitution definedVars path with
  | some e => "$" ++ e.1 ++ "/" ++ strTrimPre path (e.2 ++ "/")
  | none => path

/-- Format one emitted line (`fmt.Sprintf("export %s=%s", name, value)`). -/
def mkLine (name value : String) : String := "export " ++ name ++ "=" ++ value

/-- Body of the candidate loop of `defineIntermediateVars` for one candidate
path. -/
def divStep (paths : List String) (prefixCounts : List (String × Nat)) (zo : ZoweeOptimizer)
    (pfx : String) : ZoweeOptimizer :=
  if !(decide (1 < countOf prefixCounts pfx) && !(mapContainsValue zo.definedVars pfx) &&
      !(hasParentInPaths pfx paths) && !(hasConflictingDefined pfx zo.definedVars)) ||
      !(!(contains paths pfx)) then zo
  else if generateVarName zo.definedVars pfx = "" then zo
  else
    match lookupVar zo.definedVars (generateVarName zo.definedVars pfx) with
    | some _ => zo
    | none =>
      { definedVars := insertVar zo.definedVars (generateVarName zo.definedVars pfx) pfx
        intermediateVars := insertVar zo.intermediateVars pfx
          (mkLine (generateVarName zo.definedVars pfx) (renderValue zo.definedVars pfx)) }

/-- `defineIntermediateVars(paths)` of `internal/config.go`: count proper
ancestors of the input paths, then walk them in ascending length order,
synthesizing an intermediate variable for each eligible candidate. -/
def defineIntermediateVars (zo : ZoweeOptimizer) (paths : List String) : ZoweeOptimizer :=
  let prefixCounts := paths.foldl (fun m p => (pathLeads p).foldl bumpCount m) []
  let sortedCandidates := List.insertionSort lenLe (prefixCounts.map Prod.fst)
  sortedCandidates.foldl (divStep paths prefixCounts) zo

/-- Body of the terminal loop of `Optimize` for one input path. -/
def optStep (initialRoots : List String) (acc : List String × ZoweeOptimizer) (path : String) :
    List String × ZoweeOptimizer :=
  if generateVarName acc.2.definedVars path = "" then acc
  else if contains initialRoots ("$" ++ generateVarName acc.2.definedVars path) = true ∧
      (lookupVar acc.2.definedVars (generateVarName acc.2.definedVars path)).getD "" = path then acc
  else
    (acc.1 ++ [mkLine (generateVarName acc.2.definedVars path) (renderValue acc.2.definedVars path)],
      { acc.2 with definedVars :=
          insertVar acc.2.definedVars (generateVarName acc.2.definedVars path) path })

/-- `Optimize(paths, initialRoots)` of `internal/config.go`.  Returns the
emitted lines together with the optimizer state after the call (the Go
method mutates its receiver). -/
def ZoweeOptimizer.optimize (zo : ZoweeOptimizer) (paths initialRoots : List String) :
    List String × ZoweeOptimizer :=
  let zo1 := defineIntermediateVars zo paths
  let res := paths.foldl (optStep initialRoots) ([], zo1)
  let interKeys := List.insertionSort strLe (res.2.intermediateVars.map Prod.fst)
  let interLines := interKeys.map (fun p => (lookupVar res.2.intermediateVars p).getD "")
  (uniqueStrings (interLines ++ res.1), res.2)

/-- The candidate ancestor paths of `defineIntermediateVars`, in the discovery
order of the association-list model: the keys of the `prefixes` count map. -/
def zoweeCandidates (paths : List String) : List String :=
  (paths.foldl (fun m p => (pathLeads p).foldl bumpCount m) []).map Prod.fst

/-- `defineIntermediateVars` with the candidate processing order exposed as a
parameter.  Go sorts the candidates only by ascending length with the unstable
`sort.Slice` over randomized map iteration, so every `lenLe`-sorted enumeration
of `zoweeCandidates paths` is a possible execution of the source; the default
`defineIntermediateVars` fixes one such enumeration (stable sort over discovery
order). -/
def defineIntermediateVarsWith (zo : ZoweeOptimizer) (paths cands : List String) :
    ZoweeOptimizer :=
  cands.foldl (divStep paths (paths.foldl (fun m p => (pathLeads p).foldl bumpCount m) [])) zo

/-- `Optimize` with the intermediate-candidate processing order exposed as a
parameter (see `defineIntermediateVarsWith`). -/
def ZoweeOptimizer.optimizeWith (zo : ZoweeOptimizer) (paths initialRoots cands : List String) :
    List String × ZoweeOptimizer :=
  let zo1 := defineIntermediateVarsWith zo paths cands
  let res := paths.foldl (optStep initialRoots) ([], zo1)
  let interKeys := List.insertionSort strLe (res.2.intermediateVars.map Prod.fst)
  let interLines := interKeys.map (fun p => (lookupVar res.2.intermediateVars p).getD "")
  (uniqueStrings (interLines ++ res.1), res.2)

/-! ### Path algebra (`Roots`, `TrimToLevel`) -/

/-- `TrimToLevel(paths, level)`: keep at most the first `level` non-empty
components of each path, rejoin with a leading slash, deduplicate keeping
first occurrences, and sort. -/
def trimToLevel (paths : List String) (level : Nat) : List String :=
  let trimmed := paths.map (fun path =>
    let elements := (splitChar '/' path.data).filter (fun part => part ≠ [])
    let elements2 := if level ≤ elements.length then elements.take level else elements
    String.mk ('/' :: joinChar '/' elements2))
  List.insertionSort strLe (uniqueStrings trimmed)

/-- The trim-and-retry loop of `Roots`: trim at `level`, return the sole
survivor if the set collapsed, otherwise decrement and retry; `none` when
`level` is exhausted. -/
def rootsLoop : Nat → List String → Option String
  | 0, _ => none
  | l + 1, paths =>
    let t := trimToLevel paths (l + 1)
    if t.length = 1 then t.head? else rootsLoop l t

/-- `Roots(paths, level, allowRootMatch)` of the path algebra.  `none`
models the hard abort on `level ≤ 0` (`os.Exit`). -/
def goRoots (paths : List String) (level : Nat) (allowRootMatch : Bool) : Option String :=
  if level = 0 then none
  else some <|
    if paths.length = 0 then (if allowRootMatch then "/" else "")
    else if paths.length = 1 then
      let root := goDir (paths.headD "")
      if root = "/" then (if allowRootMatch then "/" else "") else root
    else
      match rootsLoop level paths with
      | some r => r
      | none => if allowRootMatch then "/" else ""

/-! ### Root resolution and path abbreviation (`internal/git_tree_walker.go`) -/

/-- Error taxonomy of root resolution.  The Go code returns
`fmt.Errorf("environment variable %s is undefined", arg)`; this embedding
keeps the offending argument structurally. -/
inductive RootError where
  | undefinedEnvironmentVariable (arg : String)
deriving DecidableEq

/-- Does a character list spell a Go identifier (`[a-zA-Z_]\w*`)? -/
def isIdentList : List Char → Bool
  | [] => false
  | c :: t => identStart c && t.all wordChar

/-- Does a character list spell `$IDENT`? -/
def isDollarRef : List Char → Bool
  | [] => false
  | c :: t => decide (c = '$') && isIdentList t

/-- The anchored regexp of `processRootArg`:
`^(?:'\$[a-zA-Z_]\w*'|\$[a-zA-Z_]\w*)$`. -/
def isExplicitEnvRef (arg : String) : Bool :=
  isDollarRef arg.data ||
    (match arg.data with
     | c :: rest =>
       decide (c = apos) && !rest.isEmpty && decide (rest.getLast? = some apos) &&
         isDollarRef rest.dropLast
     | [] => false)

/-- Assignment on the association-list model of `RootMap` (last wins). -/
def insertRootEntry : List (String × List String) → String → List String →
    List (String × List String)
  | [], k, v => [(k, v)]
  | e :: t, k, v => if e.1 = k then (k, v) :: t else e :: insertRootEntry t k v

/-- Tail of `processRootArg`: split the resolved path string on white space,
absolutize each piece, and store the list under the display key (empty path
strings store nothing). -/
def storePaths (absf : String → String) (rootMap : List (String × List String))
    (path displayName : String) : List (String × List String) :=
  if path = "" then rootMap
  else insertRootEntry rootMap displayName ((goFields path).map absf)

/-- `processRootArg(arg)` of `internal/git_tree_walker.go`: explicit `$VAR`
or `'$VAR'` references (must be defined and non-empty), implicit identifier
references (expanded when defined), and literal paths. -/
def processRootArg (env : String → String) (absf : String → String)
    (rootMap : List (String × List String)) (arg : String) :
    Except RootError (List (String × List String)) :=
  if isExplicitEnvRef arg then
    if env (goTrimChars arg [apos, '$']) = "" then .error (.undefinedEnvironmentVariable arg)
    else .ok (storePaths absf rootMap (env (goTrimChars arg [apos, '$']))
      ("$" ++ goTrimChars arg [apos, '$']))
  else if isIdentList arg.data then
    if env arg ≠ "" then .ok (storePaths absf rootMap (env arg) ("$" ++ arg))
    else .ok (storePaths absf rootMap arg arg)
  else .ok (storePaths absf rootMap arg arg)

/-- The argument loop of `determineRoots`: abort on the first failing
argument. -/
def rootsFold (env : String → String) (absf : String → String) :
    List (String × List String) → List String → Except RootError (List (String × List String))
  | rm, [] => .ok rm
  | rm, arg :: rest =>
    match processRootArg env absf rm arg with
    | .error e => .error e
    | .ok rm2 => rootsFold env absf rm2 rest

/-- Arguments after defaulting and white-space expansion, as computed at the
top of `determineRoots`. -/
def expandedArgsOf (defaultRoots args : List String) : List String :=
  (if args.isEmpty then defaultRoots else args).flatMap goFields

/-- `GitTreeWalker` (`internal/git_tree_walker.go`), restricted to the data
the core manipulates. -/
structure GitTreeWalker where
  displayRoots : List String
  rootMap : List (String × List String)
  serial : Bool
deriving DecidableEq

/-- `NewGitTreeWalker(args, serial)`: resolve all root arguments; any
resolution failure aborts construction and no walker (hence no partial root
table) is produced. -/
def newGitTreeWalker (env : String → String) (absf : String → String)
    (defaultRoots args : List String) (serial : Bool) : Except RootError GitTreeWalker :=
  let expandedArgs := expandedArgsOf defaultRoots args
  match rootsFold env absf [] expandedArgs with
  | .error e => .error e
  | .ok rm => .ok { displayRoots := expandedArgs, rootMap := rm, serial := serial }

/-- One candidate step of the longest-match scan of `AbbreviatePath`: adopt
`expandedPath` (with its display key) when it matches `dir` and is longer
than the best match so far. -/
def abbrInner (dir displayRoot : String) (acc2 : String × String) (expandedPath : String) :
    String × String :=
  if (strHasPre dir (expandedPath ++ "/") = true ∨ dir = expandedPath) ∧
      acc2.1.data.length < expandedPath.data.length
  then (expandedPath, displayRoot) else acc2

/-- `AbbreviatePath(dir)` of `internal/git_tree_walker.go`: longest matching
expanded root wins; its first occurrence in `dir` is replaced by the display
key. -/
def abbreviatePath (rootMap : List (String × List String)) (dir : String) : String :=
  let best := rootMap.foldl (fun acc kv => kv.2.foldl (abbrInner dir kv.1) acc) ("", "")
  if best.1 ≠ "" then goReplaceFirst dir best.1 best.2 else dir

/-! ### Line parsing for the forward-reference invariant -/

/-- Name bound by an `export NAME=VALUE` line, if the line has that shape. -/
def lineNameL (l : List Char) : Option (List Char) :=
  if l.take 7 = "export ".data then some ((l.drop 7).takeWhile (fun c => decide (c ≠ '=')))
  else none

/-- Value part of an `export NAME=VALUE` line. -/
def lineValueL (l : List Char) : List Char :=
  ((l.drop 7).dropWhile (fun c => decide (c ≠ '='))).drop 1

/-- Variable referenced by the value of a line, when the value has the
substitution shape `$name/...`. -/
def lineRefL (l : List Char) : Option (List Char) :=
  match lineValueL l with
  | c :: t => if c = '$' then some (t.takeWhile (fun c2 => decide (c2 ≠ '/'))) else none
  | [] => none

/-- String-level wrapper of `lineNameL`. -/
def lineName (s : String) : Option String := (lineNameL s.data).map String.mk

/-- String-level wrapper of `lineRefL`. -/
def lineRef (s : String) : Option String := (lineRefL s.data).map String.mk

/-- Scan a line list with an accumulated set of already-defined names:
every referenced variable must already be defined. -/
def nfrAux (defined : List String) : List String → Bool
  | [] => true
  | l :: rest =>
    (match lineRef l with
     | some m => contains defined m
     | none => true) &&
      nfrAux (defined ++ (match lineName l with | some n => [n] | none => [])) rest

/-- No line of the list references a variable name that is not bound by an
earlier line of the same list. -/
def noForwardRefs (lines : List String) : Bool := nfrAux [] lines

/-! ### Specification-side predicates used by the theorems -/

/-- The intermediate-variable table produced by step 1 of `Optimize`. -/
def zoweeIntermediateTable (zo : ZoweeOptimizer) (paths : List String) :
    List (String × String) :=
  (defineIntermediateVars zo paths).intermediateVars

/-- The terminal lines produced by step 2 of `Optimize`, in input order. -/
def zoweeTerminalLines (zo : ZoweeOptimizer) (paths initialRoots : List String) : List String :=
  (paths.foldl (optStep initialRoots) ([], defineIntermediateVars zo paths)).1

/-- The rendered line stored for a source path of the intermediate table. -/
def lineOf (iv : List (String × String)) (p : String) : String := (lookupVar iv p).getD ""

/-- Loop invariant of `fbsLoop`: the accumulator is either empty (best
length 0) or a genuine match whose source-path length is the best length. -/
def fbsInv (path : String) : Option (String × String) → Nat → Prop
  | none, longest => longest = 0
  | some e, longest => strHasPre path (e.2 ++ "/") = true ∧ e.2.data.length = longest ∧ 0 < longest

/-- Invariant of the optimizer state during intermediate-variable synthesis
(unseeded run): names are sanitized and non-empty, source paths are pairwise
distinct, table keys are distinct, every defined variable owns a recorded
line for its source path, and every recorded line binds a defined variable
and references (if anything) a defined variable whose source path is a
strict slash-ancestor of the line's source path. -/
def p1Inv (zo : ZoweeOptimizer) : Prop :=
  (∀ e ∈ zo.definedVars, e.1.data.all wordChar = true ∧ e.1 ≠ "") ∧
  (zo.definedVars.map Prod.snd).Nodup ∧
  (zo.intermediateVars.map Prod.fst).Nodup ∧
  (∀ e ∈ zo.definedVars, ∃ l, (e.2, l) ∈ zo.intermediateVars ∧ lineName l = some e.1) ∧
  (∀ t ∈ zo.intermediateVars,
    (∃ m, lineName t.2 = some m ∧ (m, t.1) ∈ zo.definedVars) ∧
    (lineRef t.2 = none ∨ ∃ m' p', lineRef t.2 = some m' ∧ (m', p') ∈ zo.definedVars ∧
      listIsPre (p'.data ++ ['/']) t.1.data = true))

/-- Invariant of the terminal loop of `Optimize` relative to the already
fixed intermediate lines `baseLines`: every defined variable name is
sanitized and bound by some already-present line, the lines emitted so far
contain no forward reference, and the intermediate table is untouched. -/
def optInv (baseLines : List String) (iv0 : List (String × String))
    (acc : List String × ZoweeOptimizer) : Prop :=
  (∀ e ∈ acc.2.definedVars, e.1.data.all wordChar = true ∧
    ∃ l ∈ baseLines ++ acc.1, lineName l = some e.1) ∧
  nfrAux [] (baseLines ++ acc.1) = true ∧
  acc.2.intermediateVars = iv0

/-! ## Basic lemmas about the string and list models -/

theorem strData_append (a b : String) : (a ++ b).data = a.data ++ b.data := rfl

theorem strMk_data (s : String) : String.mk s.data = s := rfl

theorem strEq_of_data {a b : String} (h : a.data = b.data) : a = b :=
  congrArg String.mk h

theorem listIsPre_iff : ∀ a b : List Char, listIsPre a b = true ↔ ∃ t, b = a ++ t := by
  intro a
  induction a with
  | nil => intro b; simp [listIsPre]
  | cons x xs ih =>
    intro b
    cases b with
    | nil =>
      simp [listIsPre]
    | cons y ys =>
      simp only [listIsPre, Bool.and_eq_true, decide_eq_true_eq, ih]
      constructor
      · rintro ⟨rfl, t, rfl⟩; exact ⟨t, rfl⟩
      · rintro ⟨t, ht⟩
        injection ht with h1 h2
        exact ⟨h1.symm, t, h2⟩

theorem listIsPre_refl (l : List Char) : listIsPre l l = true :=
  (listIsPre_iff l l).mpr ⟨[], by simp⟩

theorem listIsPre_length {a b : List Char} (h : listIsPre a b = true) : a.length ≤ b.length := by
  obtain ⟨t, rfl⟩ := (listIsPre_iff a b).mp h
  simp

theorem listIsPre_of_append {a b c : List Char} (h : listIsPre (a ++ b) c = true) :
    listIsPre a c = true := by
  obtain ⟨t, rfl⟩ := (listIsPre_iff (a ++ b) c).mp h
  exact (listIsPre_iff a _).mpr ⟨b ++ t, by simp⟩

theorem listLe_refl (l : List Char) : listLe l l = true := by
  induction l with
  | nil => rfl
  | cons c t ih => simp [listLe, ih]

theorem listLe_total : ∀ a b : List Char, listLe a b = true ∨ listLe b a = true := by
  intro a
  induction a with
  | nil => intro b; left; rfl
  | cons x xs ih =>
    intro b
    cases b with
    | nil => right; rfl
    | cons y ys =>
      rcases lt_trichotomy x y with h | h | h
      · left; simp [listLe, h]
      · subst h
        rcases ih ys with h2 | h2
        · left; simp [listLe, h2]
        · right; simp [listLe, h2]
      · right; simp [listLe, h]

theorem listLe_trans : ∀ a b c : List Char,
    listLe a b = true → listLe b c = true → listLe a c = true := by
  intro a
  induction a with
  | nil => intro b c _ _; rfl
  | cons x xs ih =>
    intro b c hab hbc
    cases b with
    | nil => simp [listLe] at hab
    | cons y ys =>
      cases c with
      | nil => simp [listLe] at hbc
      | cons z zs =>
        simp only [listLe] at hab hbc ⊢
        rcases lt_trichotomy x y with h1 | h1 | h1
        · rcases lt_trichotomy y z with h2 | h2 | h2
          · simp [h1.trans h2]
          · subst h2; simp [h1]
          · simp [h2, asymm h2] at hbc
        · subst h1
          rcases lt_trichotomy x z with h2 | h2 | h2
          · simp [h2]
          · subst h2
            simp only [lt_irrefl, if_false] at hab hbc ⊢
            exact ih _ _ hab hbc
          · simp [h2, asymm h2] at hbc
        · simp [h1, asymm h1] at hab

theorem listLe_antisymm : ∀ a b : List Char,
    listLe a b = true → listLe b a = true → a = b := by
  intro a
  induction a with
  | nil =>
    intro b _ hba
    cases b with
    | nil => rfl
    | cons y ys => simp [listLe] at hba
  | cons x xs ih =>
    intro b hab hba
    cases b with
    | nil => simp [listLe] at hab
    | cons y ys =>
      simp only [listLe] at hab hba
      rcases lt_trichotomy x y with h1 | h1 | h1
      · simp [h1, asymm h1] at hba
      · subst h1
        simp only [lt_irrefl, if_false] at hab hba
        rw [ih _ hab hba]
      · simp [h1, asymm h1] at hab

theorem listLe_append (a t : List Char) : listLe a (a ++ t) = true := by
  induction a with
  | nil => rfl
  | cons x xs ih => simp [listLe, ih]

theorem listLe_of_isPre {a b : List Char} (h : listIsPre a b = true) : listLe a b = true := by
  obtain ⟨t, rfl⟩ := (listIsPre_iff a b).mp h
  exact listLe_append a t

instance : IsTotal String strLe :=
  ⟨fun a b => listLe_total a.data b.data⟩

instance : IsTrans String strLe :=
  ⟨fun a b c => listLe_trans a.data b.data c.data⟩

theorem strLe_antisymm {a b : String} (h1 : strLe a b) (h2 : strLe b a) : a = b :=
  strEq_of_data (listLe_antisymm a.data b.data h1 h2)

theorem sorted_lenLt_of_sorted_lenLe {l : List String} (hs : List.Sorted lenLe l)
    (hn : (l.map (fun s => s.data.length)).Nodup) : List.Sorted lenLt l := by
  have hne : List.Pairwise (fun a b : String => a.data.length ≠ b.data.length) l := by
    rw [List.Nodup, List.pairwise_map] at hn
    exact hn
  exact (hs.and hne).imp (fun h => Nat.lt_of_le_of_ne h.1 h.2)

/-- Two `lenLe`-sorted permutations of a list of strings with pairwise-distinct
lengths are equal: the length-sorted enumeration of a tie-free list is unique. -/
theorem sorted_perm_eq_of_nodup_len {c1 c2 : List String} (hperm : c1.Perm c2)
    (h1 : List.Sorted lenLe c1) (h2 : List.Sorted lenLe c2)
    (hn : (c1.map (fun s => s.data.length)).Nodup) : c1 = c2 := by
  have hn2 : (c2.map (fun s => s.data.length)).Nodup :=
    ((hperm.map (fun s => s.data.length)).nodup_iff).mp hn
  exact List.eq_of_perm_of_sorted hperm (sorted_lenLt_of_sorted_lenLe h1 hn)
    (sorted_lenLt_of_sorted_lenLe h2 hn2)

/-! ## Lemmas about the association-list model -/

theorem contains_iff (l : List String) (x : String) : contains l x = true ↔ x ∈ l := by
  simp [contains, List.any_eq_true]

theorem lookupVar_cons (e : String × String) (t : List (String × String)) (k : String) :
    lookupVar (e :: t) k = if e.1 = k then some e.2 else lookupVar t k := by
  by_cases h : e.1 = k <;> simp [lookupVar, List.find?_cons, h]

theorem lookupVar_none_iff (m : List (String × String)) (k : String) :
    lookupVar m k = none ↔ ∀ e ∈ m, e.1 ≠ k := by
  induction m with
  | nil => simp [lookupVar]
  | cons e t ih =>
    rw [lookupVar_cons]
    by_cases h : e.1 = k
    · simp [h]
    · simp [h, ih]

theorem mem_of_lookupVar_some {m : List (String × String)} {k v : String}
    (h : lookupVar m k = some v) : (k, v) ∈ m := by
  induction m with
  | nil => simp [lookupVar] at h
  | cons e t ih =>
    rw [lookupVar_cons] at h
    by_cases he : e.1 = k
    · rw [if_pos he] at h
      injection h with h2
      have hkv : (k, v) = e := by
        obtain ⟨a, b⟩ := e
        simp only at he h2
        rw [he, h2]
      rw [hkv]
      exact List.mem_cons_self _ _
    · rw [if_neg he] at h
      exact List.mem_cons_of_mem _ (ih h)

theorem lookupVar_eq_some_of_mem_nodup {m : List (String × String)} {k v : String}
    (h : (k, v) ∈ m) (hnd : (m.map Prod.fst).Nodup) : lookupVar m k = some v := by
  induction m with
  | nil => simp at h
  | cons e t ih =>
    simp only [List.map_cons, List.nodup_cons] at hnd
    rcases List.mem_cons.mp h with h1 | h1
    · rw [← h1, lookupVar_cons]; simp
    · rw [lookupVar_cons, if_neg, ih h1 hnd.2]
      intro hk
      exact hnd.1 (by
        rw [hk]
        exact List.mem_map.mpr ⟨(k, v), h1, rfl⟩)

theorem insertVar_append_of_no_key : ∀ (m : List (String × String)) (k v : String),
    (∀ e ∈ m, e.1 ≠ k) → insertVar m k v = m ++ [(k, v)] := by
  intro m
  induction m with
  | nil => intro k v _; rfl
  | cons e t ih =>
    intro k v h
    rw [insertVar, if_neg (h e (by simp)), ih k v (fun x hx => h x (List.mem_cons_of_mem _ hx))]
    rfl

theorem mem_insertVar : ∀ (m : List (String × String)) (k v : String) (e : String × String),
    e ∈ insertVar m k v → e = (k, v) ∨ e ∈ m := by
  intro m
  induction m with
  | nil => intro k v e h; simp [insertVar] at h; left; exact h
  | cons x t ih =>
    intro k v e h
    rw [insertVar] at h
    by_cases hx : x.1 = k
    · rw [if_pos hx] at h
      rcases List.mem_cons.mp h with h1 | h1
      · left; exact h1
      · right; exact List.mem_cons_of_mem _ h1
    · rw [if_neg hx] at h
      rcases List.mem_cons.mp h with h1 | h1
      · right; rw [h1]; simp
      · rcases ih k v e h1 with h2 | h2
        · left; exact h2
        · right; exact List.mem_cons_of_mem _ h2

theorem mapContainsValue_false {m : List (String × String)} {v : String}
    (h : mapContainsValue m v = false) : ∀ e ∈ m, e.2 ≠ v := by
  intro e he hv
  have : mapContainsValue m v = true := by
    simp only [mapContainsValue, List.any_eq_true]
    exact ⟨e, he, by simp [hv]⟩
  rw [h] at this
  exact Bool.false_ne_true this

/-! ## Lemmas about line construction and parsing -/

theorem takeWhile_append_stop {P : Char → Bool} :
    ∀ (a : List Char) (b : Char) (t : List Char), (∀ c ∈ a, P c = true) → P b = false →
      (a ++ b :: t).takeWhile P = a := by
  intro a
  induction a with
  | nil => intro b t _ hb; simp [List.takeWhile_cons, hb]
  | cons x xs ih =>
    intro b t ha hb
    have hx : P x = true := ha x (by simp)
    rw [List.cons_append, List.takeWhile_cons, if_pos hx,
      ih b t (fun c hc => ha c (List.mem_cons_of_mem _ hc)) hb]

theorem dropWhile_append_stop {P : Char → Bool} :
    ∀ (a : List Char) (b : Char) (t : List Char), (∀ c ∈ a, P c = true) → P b = false →
      (a ++ b :: t).dropWhile P = b :: t := by
  intro a
  induction a with
  | nil => intro b t _ hb; simp [List.dropWhile_cons, hb]
  | cons x xs ih =>
    intro x' t ha hb
    have hx : P x = true := ha x (by simp)
    rw [List.cons_append, List.dropWhile_cons, if_pos hx]
    exact ih x' t (fun c hc => ha c (List.mem_cons_of_mem _ hc)) hb

theorem wordChar_ne_eq {c : Char} (h : wordChar c = true) : c ≠ '=' := by
  intro hc; rw [hc] at h; exact absurd h (by decide)

theorem wordChar_ne_slash {c : Char} (h : wordChar c = true) : c ≠ '/' := by
  intro hc; rw [hc] at h; exact absurd h (by decide)

theorem mkLine_data (m v : String) :
    (mkLine m v).data = "export ".data ++ (m.data ++ '=' :: v.data) := by
  simp [mkLine, strData_append]

theorem lineName_mk {m : String} (v : String) (hm : m.data.all wordChar = true) :
    lineName (mkLine m v) = some m := by
  have hlen : ("export ".data).length = 7 := rfl
  have htake : ((mkLine m v).data).take 7 = "export ".data := by
    rw [mkLine_data, ← hlen, List.take_left]
  have hdrop : ((mkLine m v).data).drop 7 = m.data ++ '=' :: v.data := by
    rw [mkLine_data, ← hlen, List.drop_left]
  have hword : ∀ c ∈ m.data, wordChar c = true := by
    simpa [List.all_eq_true] using hm
  unfold lineName lineNameL
  rw [htake, if_pos rfl, hdrop,
    takeWhile_append_stop m.data '=' v.data
      (fun c hc => by simp [wordChar_ne_eq (hword c hc)]) (by simp)]
  simp [strMk_data]

theorem lineValueL_mk (m v : String) (hm : m.data.all wordChar = true) :
    lineValueL (mkLine m v).data = v.data := by
  have hlen : ("export ".data).length = 7 := rfl
  have hdrop : ((mkLine m v).data).drop 7 = m.data ++ '=' :: v.data := by
    rw [mkLine_data, ← hlen, List.drop_left]
  have hword : ∀ c ∈ m.data, wordChar c = true := by
    simpa [List.all_eq_true] using hm
  unfold lineValueL
  rw [hdrop,
    dropWhile_append_stop m.data '=' v.data
      (fun c hc => by simp [wordChar_ne_eq (hword c hc)]) (by simp)]
  simp

theorem lineRef_mk_lit {m v : String} (hm : m.data.all wordChar = true)
    (hv : v.data.head? ≠ some '$') : lineRef (mkLine m v) = none := by
  unfold lineRef lineRefL
  rw [lineValueL_mk m v hm]
  cases hd : v.data with
  | nil => rfl
  | cons c t =>
    rw [hd] at hv
    have hc : ¬ c = '$' := fun h => hv (by rw [h]; rfl)
    simp [hc]

theorem lineRef_mk_sub {m m' : String} (rel : String) (hm : m.data.all wordChar = true)
    (hm' : m'.data.all wordChar = true) :
    lineRef (mkLine m ("$" ++ m' ++ "/" ++ rel)) = some m' := by
  have hword : ∀ c ∈ m'.data, wordChar c = true := by
    simpa [List.all_eq_true] using hm'
  have hv : ("$" ++ m' ++ "/" ++ rel).data = '$' :: (m'.data ++ '/' :: rel.data) := by
    simp [strData_append]
  unfold lineRef lineRefL
  rw [lineValueL_mk m _ hm, hv]
  simp only [if_pos rfl]
  rw [takeWhile_append_stop m'.data '/' rel.data
    (fun c hc => by simp [wordChar_ne_slash (hword c hc)]) (by simp)]
  simp [strMk_data]

/-! ## Characterization of the best-substitution search -/

theorem fbsLoop_spec (path : String) :
    ∀ (l : List (String × String)) (best : Option (String × String)) (longest : Nat),
      fbsInv path best longest →
      (fbsLoop path l best longest = best ∨ ∃ e ∈ l, fbsLoop path l best longest = some e) ∧
      ∃ L, fbsInv path (fbsLoop path l best longest) L ∧ longest ≤ L ∧
        ∀ e ∈ l, strHasPre path (e.2 ++ "/") = true → e.2.data.length ≤ L := by
  intro l
  induction l with
  | nil =>
    intro best longest hinv
    exact ⟨Or.inl rfl, longest, hinv, le_refl _, by simp⟩
  | cons e t ih =>
    intro best longest hinv
    by_cases hc : strHasPre path (e.2 ++ "/") = true ∧ longest < e.2.data.length
    · rw [fbsLoop, if_pos hc]
      have hinv2 : fbsInv path (some e) e.2.data.length :=
        ⟨hc.1, rfl, Nat.lt_of_le_of_lt (Nat.zero_le _) hc.2⟩
      obtain ⟨hm, L, hL, hle, hmax⟩ := ih (some e) e.2.data.length hinv2
      refine ⟨?_, L, hL, le_trans (le_of_lt hc.2) hle, ?_⟩
      · rcases hm with hm | ⟨e', he', hr⟩
        · exact Or.inr ⟨e, List.mem_cons_self _ _, hm⟩
        · exact Or.inr ⟨e', List.mem_cons_of_mem _ he', hr⟩
      · intro e' he' hme'
        rcases List.mem_cons.mp he' with rfl | he'
        · exact hle
        · exact hmax e' he' hme'
    · rw [fbsLoop, if_neg hc]
      obtain ⟨hm, L, hL, hle, hmax⟩ := ih best longest hinv
      refine ⟨?_, L, hL, hle, ?_⟩
      · rcases hm with hm | ⟨e', he', hr⟩
        · exact Or.inl hm
        · exact Or.inr ⟨e', List.mem_cons_of_mem _ he', hr⟩
      · intro e' he' hme'
        rcases List.mem_cons.mp he' with rfl | he'
        · have : ¬ longest < e'.2.data.length := fun hlt => hc ⟨hme', hlt⟩
          exact le_trans (Nat.le_of_not_lt this) hle
        · exact hmax e' he' hme'

theorem fbs_some_char {l : List (String × String)} {path : String} {e : String × String}
    (h : findBestSubstitution l path = some e) :
    e ∈ l ∧ strHasPre path (e.2 ++ "/") = true ∧ 0 < e.2.data.length ∧
      ∀ e' ∈ l, strHasPre path (e'.2 ++ "/") = true → e'.2.data.length ≤ e.2.data.length := by
  obtain ⟨hm, L, hL, _, hmax⟩ := fbsLoop_spec path l none 0 rfl
  rw [findBestSubstitution] at h
  rw [h] at hm hL
  obtain ⟨hmatch, hlen, hpos⟩ := hL
  rcases hm with hm | ⟨e', he', hr⟩
  · exact absurd hm (by simp)
  · injection hr with hr
    subst hr
    exact ⟨he', hmatch, hlen ▸ hpos, fun e'' he'' hm'' => hlen ▸ hmax e'' he'' hm''⟩

theorem fbs_none_char {l : List (String × String)} {path : String}
    (h : findBestSubstitution l path = none) :
    ∀ e ∈ l, strHasPre path (e.2 ++ "/") = true → e.2.data.length = 0 := by
  obtain ⟨_, L, hL, _, hmax⟩ := fbsLoop_spec path l none 0 rfl
  rw [findBestSubstitution] at h
  rw [h] at hL
  have hL0 : L = 0 := hL
  intro e he hme
  exact Nat.le_zero.mp (hL0 ▸ hmax e he hme)

theorem same_len_ancestor_eq {path a b : String}
    (ha : strHasPre path (a ++ "/") = true) (hb : strHasPre path (b ++ "/") = true)
    (hlen : a.data.length = b.data.length) : a = b := by
  have ha2 : listIsPre (a.data ++ ['/']) path.data = true := by
    simpa [strHasPre, strData_append] using ha
  have hb2 : listIsPre (b.data ++ ['/']) path.data = true := by
    simpa [strHasPre, strData_append] using hb
  obtain ⟨t1, ht1⟩ := (listIsPre_iff _ _).mp ha2
  obtain ⟨t2, ht2⟩ := (listIsPre_iff _ _).mp hb2
  have h1 : path.data = a.data ++ ('/' :: t1) := by simpa [List.append_assoc] using ht1
  have h2 : path.data = b.data ++ ('/' :: t2) := by simpa [List.append_assoc] using ht2
  have heq : a.data ++ ('/' :: t1) = b.data ++ ('/' :: t2) := by rw [← h1, h2]
  exact strEq_of_data (List.append_inj_left heq hlen)

/-! ## Sanitization of generated variable names -/

theorem all_wordChar_sanitize (l : List Char) :
    (l.map (fun c => if wordChar c then c else '_')).all wordChar = true := by
  rw [List.all_eq_true]
  intro c hc
  rw [List.mem_map] at hc
  obtain ⟨c', _, rfl⟩ := hc
  by_cases h : wordChar c' = true
  · simp [h]
  · rw [if_neg (by simpa using h)]
    decide

theorem generateVarName_wf (dv : List (String × String)) (path : String) :
    (generateVarName dv path).data.all wordChar = true := by
  unfold generateVarName
  by_cases hb : goBase path = ""
  · rw [if_pos hb]; rfl
  · rw [if_neg hb]
    simp only []
    generalize (match lookupVar dv _ with
      | some existingPath => if existingPath ≠ path then _ else _
      | none => _ : List Char) = name3
    have h4 : (name3.map (fun c => if wordChar c then c else '_')).all wordChar = true :=
      all_wordChar_sanitize name3
    generalize hg : name3.map (fun c => if wordChar c then c else '_') = name4 at h4
    cases name4 with
    | nil => rfl
    | cons c t =>
      show (if (decide ('0' ≤ c) && decide (c ≤ '9')) = true then '_' :: c :: t
        else c :: t).all wordChar = true
      by_cases hd : (decide ('0' ≤ c) && decide (c ≤ '9')) = true
      · rw [if_pos hd]
        simp only [List.all_cons] at h4 ⊢
        rw [h4]
        simp [wordChar]
      · rw [if_neg hd]
        exact h4

/-! ## Root resolution: error propagation -/

theorem processRootArg_error_iff (env absf : String → String)
    (rm : List (String × List String)) (arg : String) (e : RootError) :
    processRootArg env absf rm arg = .error e ↔
      (isExplicitEnvRef arg = true ∧ env (goTrimChars arg [apos, '$']) = "" ∧
        e = .undefinedEnvironmentVariable arg) := by
  unfold processRootArg
  by_cases h1 : isExplicitEnvRef arg = true
  · rw [if_pos h1]
    by_cases h2 : env (goTrimChars arg [apos, '$']) = ""
    · rw [if_pos h2]
      constructor
      · intro h; injection h with h; exact ⟨h1, h2, h.symm⟩
      · rintro ⟨_, _, rfl⟩; rfl
    · rw [if_neg h2]
      constructor
      · intro h; exact Except.noConfusion h
      · rintro ⟨_, hc, _⟩; exact absurd hc h2
  · rw [if_neg h1]
    have hfalse : ∀ rm2, (Except.ok rm2 : Except RootError (List (String × List String))) =
        .error e ↔ _ := fun rm2 => Iff.rfl
    by_cases h3 : isIdentList arg.data = true
    · rw [if_pos h3]
      by_cases h4 : env arg ≠ ""
      · rw [if_pos h4]
        exact ⟨fun h => Except.noConfusion h, fun ⟨hc, _, _⟩ => absurd hc h1⟩
      · rw [if_neg h4]
        exact ⟨fun h => Except.noConfusion h, fun ⟨hc, _, _⟩ => absurd hc h1⟩
    · rw [if_neg h3]
      exact ⟨fun h => Except.noConfusion h, fun ⟨hc, _, _⟩ => absurd hc h1⟩

theorem rootsFold_error_of_bad (env absf : String → String) :
    ∀ (l : List String) (rm : List (String × List String)),
      (∃ a ∈ l, isExplicitEnvRef a = true ∧ env (goTrimChars a [apos, '$']) = "") →
      ∃ bad, rootsFold env absf rm l = .error (.undefinedEnvironmentVariable bad) ∧
        isExplicitEnvRef bad = true ∧ env (goTrimChars bad [apos, '$']) = "" := by
  intro l
  induction l with
  | nil =>
    rintro rm ⟨a, ha, _⟩
    exact absurd ha (by simp)
  | cons h t ih =>
    rintro rm ⟨a, ha, ha2, ha3⟩
    cases hp : processRootArg env absf rm h with
    | error e =>
      obtain ⟨hb1, hb2, hb3⟩ := (processRootArg_error_iff env absf rm h e).mp hp
      refine ⟨h, ?_, hb1, hb2⟩
      rw [rootsFold, hp, hb3]
    | ok rm2 =>
      rcases List.mem_cons.mp ha with rfl | hat
      · exfalso
        have herr := (processRootArg_error_iff env absf rm a
          (.undefinedEnvironmentVariable a)).mpr ⟨ha2, ha3, rfl⟩
        rw [hp] at herr
        exact Except.noConfusion herr
      · obtain ⟨bad, hf, h2, h3⟩ := ih rm2 ⟨a, hat, ha2, ha3⟩
        refine ⟨bad, ?_, h2, h3⟩
        rw [rootsFold, hp]
        exact hf

/-! ## Path abbreviation: the longest-match scan -/

theorem str_ne_empty_pos {p : String} (h : p ≠ "") : 0 < p.data.length := by
  cases hd : p.data with
  | nil => exact absurd (strEq_of_data (by simp [hd])) h
  | cons c t => simp [hd]

theorem ancestor_len_lt {p x : String} (hm : strHasPre p (x ++ "/") = true) :
    x.data.length < p.data.length := by
  have := listIsPre_length
    (show listIsPre (x.data ++ ['/']) p.data = true by simpa [strHasPre, strData_append] using hm)
  simp only [List.length_append, List.length_cons, List.length_nil] at this
  omega

theorem abbrInner_keep (p : String) :
    ∀ (ps : List String) (d : String) (acc : String × String), acc.1 = p →
      ps.foldl (abbrInner p d) acc = acc := by
  intro ps
  induction ps with
  | nil => intro d acc _; rfl
  | cons x t ih =>
    intro d acc h
    rw [List.foldl_cons]
    have hstep : abbrInner p d acc x = acc := by
      unfold abbrInner
      rw [if_neg]
      rintro ⟨hm, hlen⟩
      rw [h] at hlen
      rcases hm with hm | hm
      · exact absurd hlen (not_lt_of_gt (ancestor_len_lt hm))
      · rw [hm] at hlen; exact lt_irrefl _ hlen
    rw [hstep, ih d acc h]

theorem abbrInner_step_good (p k d : String) (acc : String × String) (x : String)
    (hg : (acc.1 = "" ∨ strHasPre p (acc.1 ++ "/") = true ∨ p = acc.1) ∧
      (acc.1 = p → acc.2 = k))
    (hd : x = p → d = k) :
    ((abbrInner p d acc x).1 = "" ∨ strHasPre p ((abbrInner p d acc x).1 ++ "/") = true ∨
      p = (abbrInner p d acc x).1) ∧ ((abbrInner p d acc x).1 = p → (abbrInner p d acc x).2 = k) := by
  unfold abbrInner
  by_cases hc : (strHasPre p (x ++ "/") = true ∨ p = x) ∧ acc.1.data.length < x.data.length
  · rw [if_pos hc]
    refine ⟨?_, fun hx => hd hx⟩
    rcases hc.1 with hm | hm
    · exact Or.inr (Or.inl hm)
    · exact Or.inr (Or.inr hm)
  · rw [if_neg hc]
    exact hg

theorem abbrInner_good (p k : String) :
    ∀ (ps : List String) (d : String) (acc : String × String),
      ((acc.1 = "" ∨ strHasPre p (acc.1 ++ "/") = true ∨ p = acc.1) ∧
        (acc.1 = p → acc.2 = k)) →
      (∀ x ∈ ps, x = p → d = k) →
      (((ps.foldl (abbrInner p d) acc).1 = "" ∨
        strHasPre p ((ps.foldl (abbrInner p d) acc).1 ++ "/") = true ∨
        p = (ps.foldl (abbrInner p d) acc).1) ∧
        ((ps.foldl (abbrInner p d) acc).1 = p → (ps.foldl (abbrInner p d) acc).2 = k)) := by
  intro ps
  induction ps with
  | nil => intro d acc hg _; exact hg
  | cons x t ih =>
    intro d acc hg hd
    rw [List.foldl_cons]
    exact ih d (abbrInner p d acc x)
      (abbrInner_step_good p k d acc x hg (hd x (by simp)))
      (fun y hy => hd y (List.mem_cons_of_mem _ hy))

theorem abbrInner_reach (p k : String) (hp : p ≠ "") :
    ∀ (ps : List String) (acc : String × String),
      ((acc.1 = "" ∨ strHasPre p (acc.1 ++ "/") = true ∨ p = acc.1) ∧
        (acc.1 = p → acc.2 = k)) →
      p ∈ ps →
      ps.foldl (abbrInner p k) acc = (p, k) := by
  intro ps
  induction ps with
  | nil => intro acc _ hmem; exact absurd hmem (by simp)
  | cons x t ih =>
    intro acc hg hmem
    rw [List.foldl_cons]
    by_cases hx : x = p
    · subst hx
      by_cases hacc : acc.1 = x
      · have hacc2 : acc = (x, k) := by
          obtain ⟨a, b⟩ := acc
          simp only at hacc
          rw [hacc]
          rw [show b = k from hg.2 hacc]
        have hstep : abbrInner x k acc x = acc := by
          unfold abbrInner
          rw [if_neg]
          rintro ⟨_, hlen⟩
          rw [hacc] at hlen
          exact lt_irrefl _ hlen
        rw [hstep, hacc2, abbrInner_keep x t k (x, k) rfl]
      · have hstep : abbrInner x k acc x = (x, k) := by
          unfold abbrInner
          rw [if_pos]
          refine ⟨Or.inr rfl, ?_⟩
          rcases hg.1 with h0 | hm | hm
          · rw [h0]
            exact str_ne_empty_pos hp
          · exact ancestor_len_lt hm
          · exact absurd hm.symm hacc
        rw [hstep, abbrInner_keep x t k (x, k) rfl]
    · have hmem2 : p ∈ t := by
        rcases List.mem_cons.mp hmem with h | h
        · exact absurd h.symm hx
        · exact h
      exact ih (abbrInner p k acc x)
        (abbrInner_step_good p k k acc x hg (fun _ => rfl)) hmem2

theorem abbrOuter_keep (p : String) :
    ∀ (rm : List (String × List String)) (acc : String × String), acc.1 = p →
      rm.foldl (fun acc kv => kv.2.foldl (abbrInner p kv.1) acc) acc = acc := by
  intro rm
  induction rm with
  | nil => intro acc _; rfl
  | cons kv t ih =>
    intro acc h
    rw [List.foldl_cons, abbrInner_keep p kv.2 kv.1 acc h, ih acc h]

theorem abbrOuter_good (p k : String) :
    ∀ (rm : List (String × List String)) (acc : String × String),
      ((acc.1 = "" ∨ strHasPre p (acc.1 ++ "/") = true ∨ p = acc.1) ∧
        (acc.1 = p → acc.2 = k)) →
      (∀ e ∈ rm, p ∈ e.2 → e.1 = k) →
      (((rm.foldl (fun acc kv => kv.2.foldl (abbrInner p kv.1) acc) acc).1 = "" ∨
        strHasPre p ((rm.foldl (fun acc kv => kv.2.foldl (abbrInner p kv.1) acc) acc).1 ++ "/") =
          true ∨
        p = (rm.foldl (fun acc kv => kv.2.foldl (abbrInner p kv.1) acc) acc).1) ∧
        ((rm.foldl (fun acc kv => kv.2.foldl (abbrInner p kv.1) acc) acc).1 = p →
          (rm.foldl (fun acc kv => kv.2.foldl (abbrInner p kv.1) acc) acc).2 = k)) := by
  intro rm
  induction rm with
  | nil => intro acc hg _; exact hg
  | cons kv t ih =>
    intro acc hg hu
    rw [List.foldl_cons]
    refine ih (kv.2.foldl (abbrInner p kv.1) acc) ?_ (fun e he hpe => hu e (List.mem_cons_of_mem _ he) hpe)
    exact abbrInner_good p k kv.2 kv.1 acc hg
      (fun x hx hxp => hu kv (by simp) (hxp ▸ hx))

theorem goReplaceFirst_self (s r : String) : goReplaceFirst s s r = r := by
  unfold goReplaceFirst
  cases s.data with
  | nil => exact strMk_data r
  | cons c t =>
    have h1 : replaceFirstL (c :: t) r.data (c :: t) = r.data ++ (c :: t).drop (c :: t).length := by
      rw [replaceFirstL, if_pos (listIsPre_refl (c :: t))]
    rw [h1, List.drop_length, List.append_nil]

/-! ## Structure of the Optimize assembly -/

theorem optStep_iv (ir : List String) (acc : List String × ZoweeOptimizer) (p : String) :
    (optStep ir acc p).2.intermediateVars = acc.2.intermediateVars := by
  unfold optStep
  by_cases h1 : generateVarName acc.2.definedVars p = ""
  · rw [if_pos h1]
  · rw [if_neg h1]
    by_cases h2 : contains ir ("$" ++ generateVarName acc.2.definedVars p) = true ∧
        (lookupVar acc.2.definedVars (generateVarName acc.2.definedVars p)).getD "" = p
    · rw [if_pos h2]
    · rw [if_neg h2]

theorem optFold_iv (ir : List String) :
    ∀ (ps : List String) (acc : List String × ZoweeOptimizer),
      (ps.foldl (optStep ir) acc).2.intermediateVars = acc.2.intermediateVars := by
  intro ps
  induction ps with
  | nil => intro acc; rfl
  | cons p t ih =>
    intro acc
    rw [List.foldl_cons, ih, optStep_iv]

theorem optimize_fst_eq (zo : ZoweeOptimizer) (paths ir : List String) :
    (zo.optimize paths ir).fst =
      uniqueStrings
        (((List.insertionSort strLe ((zoweeIntermediateTable zo paths).map Prod.fst)).map
          (lineOf (zoweeIntermediateTable zo paths))) ++ zoweeTerminalLines zo paths ir) := by
  unfold ZoweeOptimizer.optimize zoweeIntermediateTable zoweeTerminalLines
  simp only [optFold_iv]
  rfl

/-! ## The forward-reference scan -/

theorem nfrAux_mono : ∀ (L ns1 ns2 : List String), (∀ x ∈ ns1, x ∈ ns2) →
    nfrAux ns1 L = true → nfrAux ns2 L = true := by
  intro L
  induction L with
  | nil => intro ns1 ns2 _ _; rfl
  | cons l t ih =>
    intro ns1 ns2 hsub h
    rw [nfrAux, Bool.and_eq_true] at h
    obtain ⟨h1, h2⟩ := h
    rw [nfrAux, Bool.and_eq_true]
    constructor
    · cases hr : lineRef l with
      | none => rfl
      | some m =>
        rw [hr] at h1
        exact (contains_iff ns2 m).mpr (hsub m ((contains_iff ns1 m).mp h1))
    · refine ih _ _ (fun x hx => ?_) h2
      rcases List.mem_append.mp hx with hx | hx
      · exact List.mem_append.mpr (Or.inl (hsub x hx))
      · exact List.mem_append.mpr (Or.inr hx)

theorem nfrAux_append : ∀ (A ns B : List String),
    nfrAux ns (A ++ B) = true ↔
      (nfrAux ns A = true ∧ nfrAux (ns ++ A.filterMap lineName) B = true) := by
  intro A
  induction A with
  | nil => intro ns B; simp [nfrAux]
  | cons l t ih =>
    intro ns B
    rw [List.cons_append, nfrAux, nfrAux, Bool.and_eq_true, Bool.and_eq_true, ih]
    have hacc : (ns ++ (match lineName l with | some n => [n] | none => [])) ++
        t.filterMap lineName = ns ++ (l :: t).filterMap lineName := by
      cases hn : lineName l <;> simp [List.filterMap_cons, hn]
    rw [hacc]
    exact ⟨fun ⟨a, b, c⟩ => ⟨⟨a, b⟩, c⟩, fun ⟨⟨a, b⟩, c⟩ => ⟨a, b, c⟩⟩

theorem nfr_uniqueAux : ∀ (L ns seen : List String),
    nfrAux ns L = true →
    (∀ s ∈ seen, ∀ m, lineName s = some m → m ∈ ns) →
    nfrAux ns (uniqueStringsAux seen L) = true := by
  intro L
  induction L with
  | nil => intro ns seen _ _; rfl
  | cons l t ih =>
    intro ns seen h hseen
    rw [nfrAux, Bool.and_eq_true] at h
    obtain ⟨h1, h2⟩ := h
    rw [uniqueStringsAux]
    by_cases hmem : contains seen l = true
    · rw [if_pos hmem]
      have hl : l ∈ seen := (contains_iff seen l).mp hmem
      have h2' : nfrAux ns t = true := by
        cases hn : lineName l with
        | none =>
          rw [hn] at h2
          simpa using h2
        | some n =>
          rw [hn] at h2
          refine nfrAux_mono t (ns ++ [n]) ns (fun x hx => ?_) h2
          rcases List.mem_append.mp hx with hx | hx
          · exact hx
          · rw [List.mem_singleton.mp hx]
            exact hseen l hl n hn
      exact ih ns seen h2' hseen
    · rw [if_neg hmem, nfrAux, Bool.and_eq_true]
      refine ⟨h1, ?_⟩
      refine ih _ (l :: seen) h2 (fun s hs m hm => ?_)
      rcases List.mem_cons.mp hs with rfl | hs
      · rw [hm]
        exact List.mem_append.mpr (Or.inr (by simp))
      · exact List.mem_append.mpr (Or.inl (hseen s hs m hm))

theorem noForwardRefs_uniqueStrings (L : List String) (h : nfrAux [] L = true) :
    noForwardRefs (uniqueStrings L) = true :=
  nfr_uniqueAux L [] [] h (by simp)

/-! ## Candidate paths of the intermediate-variable synthesis -/

theorem splitChar_head (c : Char) (l : List Char) :
    splitChar c (c :: l) = [] :: splitChar c l := by
  unfold splitChar splitByP
  rw [List.foldr_cons]
  simp

theorem joinChar_nil_head (ls : List (List Char)) :
    joinChar '/' ([] :: ls) = [] ∨ (joinChar '/' ([] :: ls)).head? = some '/' := by
  cases ls with
  | nil => left; rfl
  | cons l ls' => right; rfl

theorem pathLeads_head {p : String} (hp : p.data.head? = some '/') :
    ∀ q ∈ pathLeads p, q.data.head? ≠ some '$' := by
  intro q hq
  unfold pathLeads at hq
  rw [List.mem_map] at hq
  obtain ⟨i, hi, rfl⟩ := hq
  have hi1 : 1 ≤ i := by
    have := List.mem_range'_1.mp hi
    exact this.1
  obtain ⟨j, rfl⟩ : ∃ j, i = j + 1 := ⟨i - 1, by omega⟩
  cases hd : p.data with
  | nil => rw [hd] at hp; exact absurd hp (by simp)
  | cons c rest =>
    rw [hd] at hp
    have hc : c = '/' := by
      simpa using hp
    subst hc
    rw [splitChar_head, List.take_succ_cons]
    rcases joinChar_nil_head ((splitChar '/' rest).take j) with h | h
    · rw [h]
      simp
    · rw [show (String.mk (joinChar '/' ([] :: (splitChar '/' rest).take j))).data =
        joinChar '/' ([] :: (splitChar '/' rest).take j) from rfl, h]
      decide

theorem bumpCount_keys : ∀ (m : List (String × Nat)) (k : String) (e : String × Nat),
    e ∈ bumpCount m k → e.1 ∈ m.map Prod.fst ∨ e.1 = k := by
  intro m
  induction m with
  | nil =>
    intro k e he
    simp only [bumpCount, List.mem_singleton] at he
    right; rw [he]
  | cons x t ih =>
    intro k e he
    rw [bumpCount] at he
    by_cases hx : x.1 = k
    · rw [if_pos hx] at he
      rcases List.mem_cons.mp he with rfl | he
      · left; simp
      · left; exact List.mem_map.mpr ⟨e, List.mem_cons_of_mem _ he, rfl⟩
    · rw [if_neg hx] at he
      rcases List.mem_cons.mp he with rfl | he
      · left; simp
      · rcases ih k e he with h | h
        · left
          rw [List.map_cons]
          exact List.mem_cons_of_mem _ h
        · right; exact h

theorem bumpFold_keys : ∀ (ks : List String) (m : List (String × Nat)) (e : String × Nat),
    e ∈ ks.foldl bumpCount m → e.1 ∈ m.map Prod.fst ∨ e.1 ∈ ks := by
  intro ks
  induction ks with
  | nil =>
    intro m e he
    left; exact List.mem_map.mpr ⟨e, he, rfl⟩
  | cons k t ih =>
    intro m e he
    rw [List.foldl_cons] at he
    rcases ih (bumpCount m k) e he with h | h
    · rw [List.mem_map] at h
      obtain ⟨e', he', hk⟩ := h
      rcases bumpCount_keys m k e' he' with h2 | h2
      · left; rw [← hk]; exact h2
      · right; rw [← hk, h2]; simp
    · right; exact List.mem_cons_of_mem _ h

theorem prefixCounts_keys : ∀ (paths : List String) (m : List (String × Nat)) (e : String × Nat),
    e ∈ paths.foldl (fun m p => (pathLeads p).foldl bumpCount m) m →
    e.1 ∈ m.map Prod.fst ∨ ∃ p ∈ paths, e.1 ∈ pathLeads p := by
  intro paths
  induction paths with
  | nil => intro m e he; left; exact List.mem_map.mpr ⟨e, he, rfl⟩
  | cons p t ih =>
    intro m e he
    rw [List.foldl_cons] at he
    rcases ih _ e he with h | h
    · rw [List.mem_map] at h
      obtain ⟨e', he', hk⟩ := h
      rcases bumpFold_keys (pathLeads p) m e' he' with h2 | h2
      · left; rw [← hk]; exact h2
      · right; exact ⟨p, by simp, hk ▸ h2⟩
    · obtain ⟨p', hp', hm⟩ := h
      exact Or.inr ⟨p', List.mem_cons_of_mem _ hp', hm⟩

/-! ## Phase 1: the intermediate-variable synthesis preserves the invariant -/

theorem divStep_p1 (paths : List String) (pc : List (String × Nat)) (zo : ZoweeOptimizer)
    (pfx : String) (hzo : p1Inv zo) (hpfx : pfx.data.head? ≠ some '$') :
    p1Inv (divStep paths pc zo pfx) := by
  obtain ⟨w1, w2, w6, w3, w4⟩ := hzo
  unfold divStep
  by_cases hb1 : (!(decide (1 < countOf pc pfx) && !(mapContainsValue zo.definedVars pfx) &&
      !(hasParentInPaths pfx paths) && !(hasConflictingDefined pfx zo.definedVars)) ||
      !(!(contains paths pfx))) = true
  · rw [if_pos hb1]; exact ⟨w1, w2, w6, w3, w4⟩
  · rw [if_neg hb1]
    by_cases hb2 : generateVarName zo.definedVars pfx = ""
    · rw [if_pos hb2]; exact ⟨w1, w2, w6, w3, w4⟩
    · rw [if_neg hb2]
      cases hlk : lookupVar zo.definedVars (generateVarName zo.definedVars pfx) with
      | some v => exact ⟨w1, w2, w6, w3, w4⟩
      | none =>
        have hmc : mapContainsValue zo.definedVars pfx = false := by
          cases hm : mapContainsValue zo.definedVars pfx
          · rfl
          · exfalso
            apply hb1
            simp [hm]
        have hvalne : ∀ e ∈ zo.definedVars, e.2 ≠ pfx := mapContainsValue_false hmc
        have hdvins : insertVar zo.definedVars (generateVarName zo.definedVars pfx) pfx =
            zo.definedVars ++ [(generateVarName zo.definedVars pfx, pfx)] :=
          insertVar_append_of_no_key _ _ _ ((lookupVar_none_iff _ _).mp hlk)
        have hivkeys : ∀ t ∈ zo.intermediateVars, t.1 ≠ pfx := by
          intro t ht hteq
          obtain ⟨⟨m, _, hmem⟩, _⟩ := w4 t ht
          exact hvalne (m, t.1) hmem hteq
        have hivins : insertVar zo.intermediateVars pfx
            (mkLine (generateVarName zo.definedVars pfx) (renderValue zo.definedVars pfx)) =
            zo.intermediateVars ++ [(pfx,
              mkLine (generateVarName zo.definedVars pfx) (renderValue zo.definedVars pfx))] :=
          insertVar_append_of_no_key _ _ _ hivkeys
        have hwf : (generateVarName zo.definedVars pfx).data.all wordChar = true :=
          generateVarName_wf _ _
        refine ⟨?_, ?_, ?_, ?_, ?_⟩
        · -- names sanitized and non-empty
          simp only [hdvins]
          intro e he
          rcases List.mem_append.mp he with he | he
          · exact w1 e he
          · rw [List.mem_singleton.mp he]
            exact ⟨hwf, hb2⟩
        · -- source paths pairwise distinct
          simp only [hdvins, List.map_append]
          rw [List.nodup_append]
          refine ⟨w2, by simp, ?_⟩
          intro x hx hx2
          simp only [List.map_cons, List.map_nil, List.mem_singleton] at hx2
          rw [List.mem_map] at hx
          obtain ⟨e, he, hk⟩ := hx
          exact hvalne e he (hk.trans hx2)
        · -- intermediate keys distinct
          simp only [hivins, List.map_append]
          rw [List.nodup_append]
          refine ⟨w6, by simp, ?_⟩
          intro x hx hx2
          simp only [List.map_cons, List.map_nil, List.mem_singleton] at hx2
          rw [List.mem_map] at hx
          obtain ⟨t, ht, hk⟩ := hx
          exact hivkeys t ht (hk.trans hx2)
        · -- every defined variable owns a recorded line
          simp only [hdvins, hivins]
          intro e he
          rcases List.mem_append.mp he with he | he
          · obtain ⟨l, hl, hn⟩ := w3 e he
            exact ⟨l, List.mem_append.mpr (Or.inl hl), hn⟩
          · rw [List.mem_singleton.mp he]
            exact ⟨mkLine (generateVarName zo.definedVars pfx) (renderValue zo.definedVars pfx),
              List.mem_append.mpr (Or.inr (by simp)),
              lineName_mk _ hwf⟩
        · -- every recorded line is well formed
          simp only [hdvins, hivins]
          intro t ht
          rcases List.mem_append.mp ht with ht | ht
          · obtain ⟨⟨m, hm1, hm2⟩, href⟩ := w4 t ht
            refine ⟨⟨m, hm1, List.mem_append.mpr (Or.inl hm2)⟩, ?_⟩
            rcases href with href | ⟨m', p', hr1, hr2, hr3⟩
            · exact Or.inl href
            · exact Or.inr ⟨m', p', hr1, List.mem_append.mpr (Or.inl hr2), hr3⟩
          · rw [List.mem_singleton.mp ht]
            refine ⟨⟨generateVarName zo.definedVars pfx, lineName_mk _ hwf,
              List.mem_append.mpr (Or.inr (by simp))⟩, ?_⟩
            unfold renderValue
            cases hfbs : findBestSubstitution zo.definedVars pfx with
            | none =>
              exact Or.inl (lineRef_mk_lit hwf hpfx)
            | some e =>
              obtain ⟨hemem, hematch, _, _⟩ := fbs_some_char hfbs
              have hewf : e.1.data.all wordChar = true := (w1 e hemem).1
              refine Or.inr ⟨e.1, e.2, lineRef_mk_sub _ hwf hewf, ?_, ?_⟩
              · exact List.mem_append.mpr (Or.inl (by rwa [Prod.mk.eta]))
              · simpa [strHasPre, strData_append] using hematch

theorem divFold_p1 (paths : List String) (pc : List (String × Nat)) :
    ∀ (cands : List String) (zo : ZoweeOptimizer), p1Inv zo →
      (∀ q ∈ cands, q.data.head? ≠ some '$') →
      p1Inv (cands.foldl (divStep paths pc) zo) := by
  intro cands
  induction cands with
  | nil => intro zo hzo _; exact hzo
  | cons q t ih =>
    intro zo hzo hq
    rw [List.foldl_cons]
    exact ih _ (divStep_p1 paths pc zo q hzo (hq q (by simp)))
      (fun x hx => hq x (List.mem_cons_of_mem _ hx))

/-! ## The sorted intermediate lines contain no forward reference -/

theorem mem_keys_lineOf {iv : List (String × String)} (w6 : (iv.map Prod.fst).Nodup)
    {q : String} (hq : q ∈ iv.map Prod.fst) :
    (q, lineOf iv q) ∈ iv := by
  rw [List.mem_map] at hq
  obtain ⟨t, ht, htq⟩ := hq
  have hmem : (q, t.2) ∈ iv := by
    obtain ⟨a, b⟩ := t
    simp only at htq
    rw [← htq]
    exact ht
  have hlk : lookupVar iv q = some t.2 := lookupVar_eq_some_of_mem_nodup hmem w6
  unfold lineOf
  rw [hlk]
  exact hmem

theorem sorted_scan (zo1 : ZoweeOptimizer) (h : p1Inv zo1) :
    ∀ (rest done : List String),
      done ++ rest = List.insertionSort strLe (zo1.intermediateVars.map Prod.fst) →
      nfrAux ((done.map (lineOf zo1.intermediateVars)).filterMap lineName)
        (rest.map (lineOf zo1.intermediateVars)) = true := by
  obtain ⟨w1, w2, w6, w3, w4⟩ := h
  intro rest
  induction rest with
  | nil => intro done _; rfl
  | cons q rest' ih =>
    intro done hsplit
    have hsorted : List.Sorted strLe (done ++ q :: rest') := by
      rw [hsplit]
      exact List.sorted_insertionSort strLe _
    have hperm : List.Perm (List.insertionSort strLe (zo1.intermediateVars.map Prod.fst))
        (zo1.intermediateVars.map Prod.fst) := List.perm_insertionSort strLe _
    have hqkeys : q ∈ zo1.intermediateVars.map Prod.fst := by
      refine hperm.mem_iff.mp ?_
      rw [← hsplit]
      exact List.mem_append.mpr (Or.inr (by simp))
    have hqline := mem_keys_lineOf w6 hqkeys
    rw [List.map_cons, nfrAux, Bool.and_eq_true]
    obtain ⟨⟨m, hm1, hm2⟩, href⟩ := w4 _ hqline
    constructor
    · -- reference check for the line of q
      rcases href with href | ⟨m', p', hr1, hr2, hr3⟩
      · rw [href]
      · rw [hr1]
        -- the referenced variable's source path p' is a strict ancestor of q
        obtain ⟨l', hl1, hl2⟩ := w3 (m', p') hr2
        have hp'keys : p' ∈ zo1.intermediateVars.map Prod.fst :=
          List.mem_map.mpr ⟨(p', l'), hl1, rfl⟩
        have hp'sk : p' ∈ done ++ q :: rest' := by
          rw [hsplit]
          exact hperm.mem_iff.mpr hp'keys
        have hlt : p'.data.length + 1 ≤ q.data.length := by
          have := listIsPre_length hr3
          simpa using this
        have hne : p' ≠ q := by
          intro he
          rw [he] at hlt
          omega
        have hle : strLe p' q := listLe_of_isPre (listIsPre_of_append hr3)
        have hp'done : p' ∈ done := by
          rcases List.mem_append.mp hp'sk with hd | hd
          · exact hd
          · rcases List.mem_cons.mp hd with he | hd
            · exact absurd he hne
            · exfalso
              have hq_le : strLe q p' := by
                have hs2 : List.Sorted strLe (q :: rest') :=
                  hsorted.sublist (List.sublist_append_right done (q :: rest'))
                exact (List.sorted_cons.mp hs2).1 p' hd
              exact hne (strLe_antisymm hle hq_le)
        have hlookup : lookupVar zo1.intermediateVars p' = some l' :=
          lookupVar_eq_some_of_mem_nodup hl1 w6
        have hlineOf : lineOf zo1.intermediateVars p' = l' := by
          unfold lineOf; rw [hlookup]; rfl
        rw [contains_iff]
        rw [List.mem_filterMap]
        exact ⟨l', List.mem_map.mpr ⟨p', hp'done, hlineOf⟩, hl2⟩
    · -- recurse with q accumulated
      have hacc : ((done.map (lineOf zo1.intermediateVars)).filterMap lineName) ++
          (match lineName (lineOf zo1.intermediateVars q) with
            | some n => [n] | none => []) =
          (((done ++ [q]).map (lineOf zo1.intermediateVars)).filterMap lineName) := by
        rw [List.map_append, List.filterMap_append]
        cases hn : lineName (lineOf zo1.intermediateVars q) <;>
          simp [List.filterMap_cons, hn]
      rw [hacc]
      refine ih (done ++ [q]) ?_
      rw [← hsplit, List.append_assoc]
      rfl

theorem interLines_nfr (zo1 : ZoweeOptimizer) (h : p1Inv zo1) :
    nfrAux [] ((List.insertionSort strLe (zo1.intermediateVars.map Prod.fst)).map
      (lineOf zo1.intermediateVars)) = true := by
  have := sorted_scan zo1 h (List.insertionSort strLe (zo1.intermediateVars.map Prod.fst)) [] rfl
  simpa using this

/-! ## Phase 2: the terminal loop preserves the invariant -/

theorem optStep_inv (baseLines : List String) (iv0 : List (String × String)) (ir : List String)
    (acc : List String × ZoweeOptimizer) (p : String)
    (hp : p.data.head? ≠ some '$')
    (hacc : optInv baseLines iv0 acc) :
    optInv baseLines iv0 (optStep ir acc p) := by
  obtain ⟨j1, j2, j3⟩ := hacc
  unfold optStep
  by_cases h1 : generateVarName acc.2.definedVars p = ""
  · rw [if_pos h1]; exact ⟨j1, j2, j3⟩
  · rw [if_neg h1]
    by_cases h2 : contains ir ("$" ++ generateVarName acc.2.definedVars p) = true ∧
        (lookupVar acc.2.definedVars (generateVarName acc.2.definedVars p)).getD "" = p
    · rw [if_pos h2]; exact ⟨j1, j2, j3⟩
    · rw [if_neg h2]
      have hwf := generateVarName_wf acc.2.definedVars p
      have hrefcheck :
          (match lineRef (mkLine (generateVarName acc.2.definedVars p)
            (renderValue acc.2.definedVars p)) with
          | some m => contains ((baseLines ++ acc.1).filterMap lineName) m
          | none => true) = true := by
        unfold renderValue
        cases hfbs : findBestSubstitution acc.2.definedVars p with
        | none => rw [lineRef_mk_lit hwf hp]
        | some e =>
          obtain ⟨hemem, _, _, _⟩ := fbs_some_char hfbs
          obtain ⟨hewf, l, hl, hn⟩ := j1 e hemem
          rw [lineRef_mk_sub _ hwf hewf]
          rw [contains_iff, List.mem_filterMap]
          exact ⟨l, hl, hn⟩
      refine ⟨?_, ?_, ?_⟩
      · intro e he
        rcases mem_insertVar _ _ _ _ he with rfl | he
        · refine ⟨hwf, mkLine (generateVarName acc.2.definedVars p)
            (renderValue acc.2.definedVars p), ?_, lineName_mk _ hwf⟩
          simp
        · obtain ⟨hewf, l, hl, hn⟩ := j1 e he
          refine ⟨hewf, l, ?_, hn⟩
          rcases List.mem_append.mp hl with hl | hl
          · exact List.mem_append.mpr (Or.inl hl)
          · exact List.mem_append.mpr (Or.inr (List.mem_append.mpr (Or.inl hl)))
      · rw [← List.append_assoc]
        rw [show baseLines ++ acc.1 ++ [mkLine (generateVarName acc.2.definedVars p)
          (renderValue acc.2.definedVars p)] =
          (baseLines ++ acc.1) ++ [mkLine (generateVarName acc.2.definedVars p)
            (renderValue acc.2.definedVars p)] from rfl]
        rw [show (true : Bool) = true from rfl] at hrefcheck
        refine (nfrAux_append (baseLines ++ acc.1) [] _).mpr ⟨by simpa using j2, ?_⟩
        rw [nfrAux, Bool.and_eq_true]
        refine ⟨by simpa using hrefcheck, rfl⟩
      · exact j3

theorem optFold_inv (baseLines : List String) (iv0 : List (String × String)) (ir : List String) :
    ∀ (ps : List String) (acc : List String × ZoweeOptimizer),
      (∀ p ∈ ps, p.data.head? ≠ some '$') →
      optInv baseLines iv0 acc →
      optInv baseLines iv0 (ps.foldl (optStep ir) acc) := by
  intro ps
  induction ps with
  | nil => intro acc _ hacc; exact hacc
  | cons p t ih =>
    intro acc hps hacc
    rw [List.foldl_cons]
    exact ih _ (fun x hx => hps x (List.mem_cons_of_mem _ hx))
      (optStep_inv baseLines iv0 ir acc p (hps p (by simp)) hacc)

/-! ## The basename is never empty -/

theorem dropWhile_head_false {p : Char → Bool} :
    ∀ (l : List Char) (c : Char) (t : List Char), l.dropWhile p = c :: t → p c = false := by
  intro l
  induction l with
  | nil => intro c t h; exact absurd h (by simp)
  | cons x xs ih =>
    intro c t h
    rw [List.dropWhile_cons] at h
    by_cases hx : p x = true
    · rw [if_pos hx] at h
      exact ih c t h
    · rw [if_neg hx] at h
      injection h with h1 _
      rw [← h1]
      exact Bool.eq_false_iff.mpr hx

theorem goBase_ne_empty (path : String) : goBase path ≠ "" := by
  unfold goBase
  by_cases h1 : path = ""
  · rw [if_pos h1]; decide
  · rw [if_neg h1]
    cases hd : path.data.reverse.dropWhile (fun c => decide (c = '/')) with
    | nil => decide
    | cons c t =>
      show (if (c :: t).reverse = [] then "/"
        else String.mk ((List.takeWhile (fun x => decide (x ≠ '/'))
          ((c :: t).reverse).reverse).reverse)) ≠ ""
      have hc : decide (c = '/') = false := dropWhile_head_false _ c t hd
      have hq : (fun x => decide (x ≠ '/')) c = true := by
        simp only [decide_eq_true_eq, ne_eq, decide_eq_false_iff_not] at hc ⊢
        exact hc
      rw [if_neg (by simp), List.reverse_reverse, List.takeWhile_cons, if_pos hq]
      intro heq
      have hdata : ((c :: t.takeWhile (fun x => decide (x ≠ '/'))).reverse) = [] :=
        congrArg String.data heq
      rw [List.reverse_eq_nil_iff] at hdata
      exact List.noConfusion hdata

/-- `optimize` is `optimizeWith` at the embedding's canonical candidate
enumeration: the stable length sort of the candidates in discovery order. -/
theorem optimize_eq_optimizeWith (zo : ZoweeOptimizer) (paths initialRoots : List String) :
    zo.optimize paths initialRoots =
      zo.optimizeWith paths initialRoots (List.insertionSort lenLe (zoweeCandidates paths)) := rfl

/-! ## The claims -/

/-- Claim C1: `Optimize(["/a", "/a/b", "/a/b/c"], [])` on a fresh, unseeded
optimizer produces exactly `export a=/a`, `export b=$a/b`, `export c=$b/c`,
in that order: each terminal binding substitutes the longest previously
defined ancestor variable, and no intermediate variables are synthesized. -/
theorem C1_optimize_nested_chain :
    ((newZoweeOptimizer []).optimize ["/a", "/a/b", "/a/b/c"] []).fst =
      ["export a=/a", "export b=$a/b", "export c=$b/c"] := by decide

/-- Claim C2 (counterexample): on the paths `/aa/x, /aa/y, /b/x, /b/y` the
optimizer synthesizes the two intermediate variables with source paths `/b`
(length 2, processed first) and `/aa` (length 3), yet the returned list puts
the `/aa` line first, because `Optimize` sorts intermediate lines
lexicographically (`sort.Strings`) and not by ascending source-path length
as the claim states. -/
theorem C2_counterexample :
    ((newZoweeOptimizer []).optimize ["/aa/x", "/aa/y", "/b/x", "/b/y"] []).fst =
      ["export aa=/aa", "export b=/b", "export x=$aa/x", "export y=$aa/y",
        "export b_x=$b/x", "export b_y=$b/y"] ∧
    zoweeIntermediateTable (newZoweeOptimizer []) ["/aa/x", "/aa/y", "/b/x", "/b/y"] =
      [("/b", "export b=/b"), ("/aa", "export aa=/aa")] ∧
    ((newZoweeOptimizer []).optimize ["/aa/x", "/aa/y", "/b/x", "/b/y"] []).fst ≠
      ["export b=/b", "export aa=/aa", "export x=$aa/x", "export y=$aa/y",
        "export b_x=$b/x", "export b_y=$b/y"] := by decide

/-- Claim C2 (amended): for every optimizer state, path list and initial
display keys, the list returned by `Optimize` consists of the intermediate
lines first, ordered by ascending lexicographic (byte-wise) order of their
source path, followed by the terminal lines in input order, with duplicate
identical lines removed preserving the first occurrence. -/
theorem C2_assembly_order (zo : ZoweeOptimizer) (paths initialRoots : List String) :
    ∃ interKeys : List String,
      interKeys.Perm ((zoweeIntermediateTable zo paths).map Prod.fst) ∧
      List.Sorted strLe interKeys ∧
      (zo.optimize paths initialRoots).fst =
        uniqueStrings ((interKeys.map (lineOf (zoweeIntermediateTable zo paths))) ++
          zoweeTerminalLines zo paths initialRoots) :=
  ⟨List.insertionSort strLe ((zoweeIntermediateTable zo paths).map Prod.fst),
    List.perm_insertionSort strLe _, List.sorted_insertionSort strLe _,
    optimize_fst_eq zo paths initialRoots⟩

/-- Claim C3: for every list of absolute paths and every initial display key
set, no line returned by `Optimize` on a fresh unseeded optimizer references
(via a `$name/...` substitution) a variable that is not defined by an
earlier line of the same returned list. -/
theorem C3_no_forward_references (paths initialRoots : List String)
    (habs : ∀ p ∈ paths, p.data.head? = some '/') :
    noForwardRefs ((newZoweeOptimizer []).optimize paths initialRoots).fst = true := by
  have h0 : p1Inv (newZoweeOptimizer []) := by
    refine ⟨?_, ?_, ?_, ?_, ?_⟩ <;> simp [newZoweeOptimizer, p1Inv]
  have hcands : ∀ q ∈ List.insertionSort lenLe
      ((paths.foldl (fun m p => (pathLeads p).foldl bumpCount m) []).map Prod.fst),
      q.data.head? ≠ some '$' := by
    intro q hq
    have hq2 : q ∈ (paths.foldl (fun m p => (pathLeads p).foldl bumpCount m) []).map Prod.fst :=
      (List.perm_insertionSort lenLe _).mem_iff.mp hq
    rw [List.mem_map] at hq2
    obtain ⟨e, he, rfl⟩ := hq2
    rcases prefixCounts_keys paths [] e he with hbad | ⟨p, hp, hq3⟩
    · simp at hbad
    · exact pathLeads_head (habs p hp) e.1 hq3
  have h1 : p1Inv (defineIntermediateVars (newZoweeOptimizer []) paths) :=
    divFold_p1 paths (paths.foldl (fun m p => (pathLeads p).foldl bumpCount m) [])
      (List.insertionSort lenLe
        ((paths.foldl (fun m p => (pathLeads p).foldl bumpCount m) []).map Prod.fst))
      (newZoweeOptimizer []) h0 hcands
  have hbase := interLines_nfr (defineIntermediateVars (newZoweeOptimizer []) paths) h1
  obtain ⟨w1, w2, w6, w3, w4⟩ := h1
  have hinit : optInv
      ((List.insertionSort strLe
        ((defineIntermediateVars (newZoweeOptimizer []) paths).intermediateVars.map Prod.fst)).map
        (lineOf (defineIntermediateVars (newZoweeOptimizer []) paths).intermediateVars))
      (defineIntermediateVars (newZoweeOptimizer []) paths).intermediateVars
      ([], defineIntermediateVars (newZoweeOptimizer []) paths) := by
    refine ⟨?_, ?_, rfl⟩
    · intro e he
      obtain ⟨l, hl, hn⟩ := w3 e he
      refine ⟨(w1 e he).1, l, ?_, hn⟩
      have hkey : e.2 ∈
          (defineIntermediateVars (newZoweeOptimizer []) paths).intermediateVars.map Prod.fst :=
        List.mem_map.mpr ⟨(e.2, l), hl, rfl⟩
      have hsm : e.2 ∈ List.insertionSort strLe
          ((defineIntermediateVars (newZoweeOptimizer []) paths).intermediateVars.map Prod.fst) :=
        (List.perm_insertionSort strLe _).mem_iff.mpr hkey
      have hlo : lineOf (defineIntermediateVars (newZoweeOptimizer []) paths).intermediateVars
          e.2 = l := by
        unfold lineOf
        rw [lookupVar_eq_some_of_mem_nodup hl w6]
        rfl
      exact List.mem_append.mpr (Or.inl (List.mem_map.mpr ⟨e.2, hsm, hlo⟩))
    · simpa using hbase
  have hps : ∀ p ∈ paths, p.data.head? ≠ some '$' := by
    intro p hp hcontra
    rw [habs p hp] at hcontra
    exact absurd hcontra (by decide)
  obtain ⟨_, j2, _⟩ := optFold_inv _ _ initialRoots paths
    ([], defineIntermediateVars (newZoweeOptimizer []) paths) hps hinit
  rw [optimize_fst_eq]
  exact noForwardRefs_uniqueStrings _ j2

/-- Claim C3 (witness): the theorem applied to the concrete absolute paths
`/a` and `/a/b`. -/
theorem C3_witness :
    (∀ p ∈ [("/a" : String), "/a/b"], p.data.head? = some '/') ∧
    noForwardRefs ((newZoweeOptimizer []).optimize ["/a", "/a/b"] []).fst = true :=
  ⟨by decide, C3_no_forward_references ["/a", "/a/b"] [] (by decide)⟩

/-- Claim C4 (counterexample): `Optimize` mutates its receiver's
`definedVars`, so running it twice in succession on the same optimizer with
the same path list and display keys is not byte-identical: on
`["/a/b", "/a"]` the first run emits `export b=/a/b` while the second run
emits `export b=$a/b`. -/
theorem C4_counterexample :
    ((newZoweeOptimizer []).optimize ["/a/b", "/a"] []).fst =
      ["export b=/a/b", "export a=/a"] ∧
    (((newZoweeOptimizer []).optimize ["/a/b", "/a"] []).snd.optimize ["/a/b", "/a"] []).fst =
      ["export b=$a/b", "export a=/a"] ∧
    ((newZoweeOptimizer []).optimize ["/a/b", "/a"] []).fst ≠
      (((newZoweeOptimizer []).optimize ["/a/b", "/a"] []).snd.optimize ["/a/b", "/a"] []).fst := by
  decide

/-- Claim C4 (amended): beyond the receiver mutation shown by the C4
counterexample, byte-identity of two fresh runs also depends on which
length-sorted enumeration of the intermediate candidates Go's unstable
`sort.Slice` over randomized map iteration happens to produce.  First part:
when no two candidates have equal length, every such enumeration is the same
list, so every valid execution of `Optimize` produces the same output.
Second part: with equal-length candidates this fails — on
`["/a", "/a/p/x/1", "/a/p/x/2", "/a/q/x/1", "/a/q/x/2"]` the candidates
`/a/p/x` and `/a/q/x` have equal length, both orders of the pair are valid
length-sorted enumerations of the candidate set, and the two orders give
different output (the names `x`/`q_x` versus `p_x`/`x`). -/
theorem C4_tie_free_determinism :
    (∀ (zo : ZoweeOptimizer) (paths initialRoots c1 c2 : List String),
      c1.Perm (zoweeCandidates paths) → c2.Perm (zoweeCandidates paths) →
      List.Sorted lenLe c1 → List.Sorted lenLe c2 →
      ((zoweeCandidates paths).map (fun s => s.data.length)).Nodup →
      zo.optimizeWith paths initialRoots c1 = zo.optimizeWith paths initialRoots c2) ∧
    (List.Perm ["", "/a", "/a/p", "/a/q", "/a/p/x", "/a/q/x"]
        (zoweeCandidates ["/a", "/a/p/x/1", "/a/p/x/2", "/a/q/x/1", "/a/q/x/2"]) ∧
      List.Perm ["", "/a", "/a/p", "/a/q", "/a/q/x", "/a/p/x"]
        (zoweeCandidates ["/a", "/a/p/x/1", "/a/p/x/2", "/a/q/x/1", "/a/q/x/2"]) ∧
      List.Sorted lenLe ["", "/a", "/a/p", "/a/q", "/a/p/x", "/a/q/x"] ∧
      List.Sorted lenLe ["", "/a", "/a/p", "/a/q", "/a/q/x", "/a/p/x"] ∧
      ((newZoweeOptimizer []).optimizeWith ["/a", "/a/p/x/1", "/a/p/x/2", "/a/q/x/1", "/a/q/x/2"]
          [] ["", "/a", "/a/p", "/a/q", "/a/p/x", "/a/q/x"]).fst ≠
        ((newZoweeOptimizer []).optimizeWith ["/a", "/a/p/x/1", "/a/p/x/2", "/a/q/x/1", "/a/q/x/2"]
          [] ["", "/a", "/a/p", "/a/q", "/a/q/x", "/a/p/x"]).fst) := by
  constructor
  · intro zo paths initialRoots c1 c2 hp1 hp2 hs1 hs2 hn
    have hn1 : (c1.map (fun s => s.data.length)).Nodup :=
      ((hp1.map (fun s => s.data.length)).nodup_iff).mpr hn
    rw [sorted_perm_eq_of_nodup_len (hp1.trans hp2.symm) hs1 hs2 hn1]
  · exact ⟨by decide, by decide, by decide, by decide, by decide⟩

/-- Witness for the amended C4: the hypotheses of the first part are
satisfiable at the tie-free path list `["/a/b/c"]` (candidate lengths 0, 2, 4
are pairwise distinct). -/
theorem C4_witness :
    (List.Perm ["", "/a", "/a/b"] (zoweeCandidates ["/a/b/c"]) ∧
      List.Sorted lenLe ["", "/a", "/a/b"] ∧
      ((zoweeCandidates ["/a/b/c"]).map (fun s => s.data.length)).Nodup) ∧
    (newZoweeOptimizer []).optimizeWith ["/a/b/c"] [] ["", "/a", "/a/b"] =
      (newZoweeOptimizer []).optimizeWith ["/a/b/c"] [] ["", "/a", "/a/b"] :=
  ⟨⟨by decide, by decide, by decide⟩,
    C4_tie_free_determinism.1 (newZoweeOptimizer []) ["/a/b/c"] [] ["", "/a", "/a/b"]
      ["", "/a", "/a/b"] (by decide) (by decide) (by decide) (by decide) (by decide)⟩

/-- Claim C5 (evaluation at the failing input): the code returns `/root` for
`Roots(["/root/sub1/sub2/sub3", "/root/sub1/sub2/sub4"], 1, false)`, not the
`/root/sub1/sub2` demanded by the claim and by the repository's own test
`TestRoots_DeeperLevel` (documented as failing in the README); at level 2
the code does return `/root/sub1` as claimed. -/
theorem C5_roots_eval :
    goRoots ["/root/sub1/sub2/sub3", "/root/sub1/sub2/sub4"] 1 false = some "/root" ∧
    goRoots ["/root/sub1/sub2/sub3", "/root/sub1/sub2/sub4"] 2 false = some "/root/sub1" := by
  decide

/-- Claim C6: if any expanded root argument is an explicit `$IDENT` or
`'$IDENT'` reference whose environment value is absent or empty, walker
construction fails with an undefined-environment-variable error for such an
argument, and no walker (hence no partial root table) is returned. -/
theorem C6_undefined_env_aborts (env absf : String → String)
    (defaultRoots args : List String) (serial : Bool)
    (h : ∃ a ∈ expandedArgsOf defaultRoots args,
      isExplicitEnvRef a = true ∧ env (goTrimChars a [apos, '$']) = "") :
    ∃ bad, newGitTreeWalker env absf defaultRoots args serial =
        .error (.undefinedEnvironmentVariable bad) ∧
      isExplicitEnvRef bad = true ∧ env (goTrimChars bad [apos, '$']) = "" := by
  obtain ⟨bad, hf, h2, h3⟩ :=
    rootsFold_error_of_bad env absf (expandedArgsOf defaultRoots args) [] h
  refine ⟨bad, ?_, h2, h3⟩
  unfold newGitTreeWalker
  simp only [hf]

/-- Claim C6 (witness): the theorem applied to the argument `$work` under an
environment that defines nothing. -/
theorem C6_witness :
    (∃ a ∈ expandedArgsOf ["sites"] ["$work"],
      isExplicitEnvRef a = true ∧ (fun _ => "") (goTrimChars a [apos, '$']) = "") ∧
    ∃ bad, newGitTreeWalker (fun _ => "") (fun s => s) ["sites"] ["$work"] true =
        .error (.undefinedEnvironmentVariable bad) ∧
      isExplicitEnvRef bad = true ∧ (fun _ => "") (goTrimChars bad [apos, '$']) = "" :=
  ⟨⟨"$work", by decide, by decide, rfl⟩,
    C6_undefined_env_aborts (fun _ => "") (fun s => s) ["sites"] ["$work"] true
      ⟨"$work", by decide, by decide, rfl⟩⟩

/-- Claim C7 (counterexample): when the same expanded path is stored under
two display keys, `AbbreviatePath` returns the key of the entry seen first,
so the claim fails for the other key: with table `{k: [/a], j: [/a]}` the
path `/a` stored under `j` abbreviates to `k`, not `j`. -/
theorem C7_counterexample :
    abbreviatePath [("k", ["/a"]), ("j", ["/a"])] "/a" = "k" ∧
    (("j" : String), ["/a"]) ∈ [(("k" : String), ["/a"]), ("j", ["/a"])] ∧
    ("/a" : String) ∈ [("/a" : String)] ∧
    abbreviatePath [("k", ["/a"]), ("j", ["/a"])] "/a" ≠ "j" := by decide

/-- Claim C7 (amended): for every root table, display key `k` and non-empty
path `p` stored in `table[k]`, if no other display key's path list also
contains `p`, then `AbbreviatePath p` returns exactly `k`: the stored path
matches itself, is the unique longest match, and the whole path is replaced
by its display key. -/
theorem C7_abbreviate_returns_key (rootMap : List (String × List String)) (k p : String)
    (hmem : ∃ ps, (k, ps) ∈ rootMap ∧ p ∈ ps)
    (huniq : ∀ e ∈ rootMap, p ∈ e.2 → e.1 = k)
    (hp : p ≠ "") :
    abbreviatePath rootMap p = k := by
  obtain ⟨ps, hkps, hpps⟩ := hmem
  obtain ⟨A, B, hAB⟩ := List.append_of_mem hkps
  subst hAB
  unfold abbreviatePath
  simp only [List.foldl_append, List.foldl_cons]
  have hgood0 : (((("", "") : String × String).1 = "" ∨
      strHasPre p (((("", "") : String × String)).1 ++ "/") = true ∨
      p = ((("", "") : String × String)).1) ∧
      (((("", "") : String × String)).1 = p → ((("", "") : String × String)).2 = k)) :=
    ⟨Or.inl rfl, fun h => absurd h.symm hp⟩
  have hgA := abbrOuter_good p k A ("", "") hgood0
    (fun e he hpe => huniq e (List.mem_append.mpr (Or.inl he)) hpe)
  have hreach : ps.foldl (abbrInner p k)
      (A.foldl (fun acc kv => kv.2.foldl (abbrInner p kv.1) acc) ("", "")) = (p, k) :=
    abbrInner_reach p k hp ps _ hgA hpps
  rw [hreach, abbrOuter_keep p B (p, k) rfl]
  rw [if_pos (show ((p, k) : String × String).1 ≠ "" from hp)]
  exact goReplaceFirst_self p k

/-- Claim C7 (witness): the amended theorem applied to the table
`{k: [/a]}` and the stored path `/a`. -/
theorem C7_witness :
    (∃ ps, (("k" : String), ps) ∈ [(("k" : String), ["/a"])] ∧ ("/a" : String) ∈ ps) ∧
    (∀ e ∈ [(("k" : String), ["/a"])], ("/a" : String) ∈ e.2 → e.1 = "k") ∧
    ("/a" : String) ≠ "" ∧
    abbreviatePath [("k", ["/a"])] "/a" = "k" :=
  ⟨⟨["/a"], by decide, by decide⟩, by decide, by decide,
    C7_abbreviate_returns_key [("k", ["/a"])] "k" "/a" ⟨["/a"], by decide, by decide⟩
      (by decide) (by decide)⟩

/-- Claim C8 (counterexample): `filepath.Base("/")` is `"/"`, which the
naming rule sanitizes to `"_"` rather than rejecting, so `Optimize(["/"])`
emits the line `export _=/` instead of skipping the path. -/
theorem C8_counterexample :
    goBase "/" = "/" ∧ generateVarName [] "/" = "_" ∧ generateVarName [] "/" ≠ "" ∧
    ((newZoweeOptimizer []).optimize ["/"] []).fst = ["export _=/"] := by decide

/-- Claim C8 (amended): the basename computed by `filepath.Base` is never
the empty string (the empty path yields `"."`); every path whose basename is
`"."` gets the empty generated name (with no variables defined yet) and is
skipped by `Optimize`, as shown for the empty path; the path `"/"`, whose
basename is `"/"`, instead yields the name `"_"`. -/
theorem C8_basename_naming :
    (∀ path : String, goBase path = "." → generateVarName [] path = "") ∧
    (∀ path : String, goBase path ≠ "") ∧
    generateVarName [] "/" = "_" ∧
    ((newZoweeOptimizer []).optimize ["", "/a"] []).fst = ["export a=/a"] := by
  refine ⟨?_, goBase_ne_empty, by decide, by decide⟩
  intro path hb
  unfold generateVarName
  rw [hb]
  rfl

/-- Claim C8 (witness): the amended theorem applied to the empty path, whose
basename is `"."`. -/
theorem C8_witness : goBase "" = "." ∧ generateVarName [] "" = "" :=
  ⟨by decide, C8_basename_naming.1 "" (by decide)⟩

/-- Claim C9: for every path and every `definedVars` table whose source-path
values are pairwise distinct, `findBestSubstitution` does not depend on the
enumeration order of the table's entries: two distinct slash-ancestors of
the same path cannot have equal length, so the longest match is unique. -/
theorem C9_fbs_order_independent (l1 l2 : List (String × String)) (path : String)
    (hperm : l1.Perm l2) (hnd : (l1.map Prod.snd).Nodup) :
    findBestSubstitution l1 path = findBestSubstitution l2 path := by
  cases h1 : findBestSubstitution l1 path with
  | none =>
    cases h2 : findBestSubstitution l2 path with
    | none => rfl
    | some f =>
      exfalso
      obtain ⟨hf, hmf, hposf, _⟩ := fbs_some_char h2
      have hf1 : f ∈ l1 := hperm.mem_iff.mpr hf
      have := fbs_none_char h1 f hf1 hmf
      omega
  | some e =>
    cases h2 : findBestSubstitution l2 path with
    | none =>
      exfalso
      obtain ⟨he, hme, hpose, _⟩ := fbs_some_char h1
      have he2 : e ∈ l2 := hperm.mem_iff.mp he
      have := fbs_none_char h2 e he2 hme
      omega
    | some f =>
      obtain ⟨he, hme, hpose, hmax⟩ := fbs_some_char h1
      obtain ⟨hf, hmf, hposf, hmaxf⟩ := fbs_some_char h2
      have hf1 : f ∈ l1 := hperm.mem_iff.mpr hf
      have he2 : e ∈ l2 := hperm.mem_iff.mp he
      have hlen : e.2.data.length = f.2.data.length :=
        le_antisymm (hmaxf e he2 hme) (hmax f hf1 hmf)
      have hv : e.2 = f.2 := same_len_ancestor_eq hme hmf hlen
      have hef : e = f := List.inj_on_of_nodup_map hnd he hf1 hv
      rw [hef]

/-- Claim C9 (witness): the theorem applied to a two-entry table and its
reversal. -/
theorem C9_witness :
    ([(("a" : String), ("/a" : String)), ("b", "/b")].Perm [("b", "/b"), ("a", "/a")]) ∧
    (([(("a" : String), ("/a" : String)), ("b", "/b")].map Prod.snd).Nodup) ∧
    findBestSubstitution [("a", "/a"), ("b", "/b")] "/a/x" =
      findBestSubstitution [("b", "/b"), ("a", "/a")] "/a/x" :=
  ⟨by decide, by decide,
    C9_fbs_order_independent [("a", "/a"), ("b", "/b")] [("b", "/b"), ("a", "/a")] "/a/x"
      (by decide) (by decide)⟩

/-- Claim C10: for every initial variable table and every initial display
key set, `Optimize` applied to the empty path list returns the empty list:
no intermediate variables are synthesized and no terminal lines are
emitted, even when the optimizer is seeded with initial root bindings. -/
theorem C10_optimize_empty_paths (initialVars : List (String × List String))
    (initialRoots : List String) :
    ((newZoweeOptimizer initialVars).optimize [] initialRoots).fst = [] := rfl
